import Mathlib

/-!
Verification development for the C generic vector / byte string library
(`src/gen_vector.c`, `src/String.c`).

Modelling conventions:
  * A vector's backing region is a `List Nat` of element values, one entry
    per element slot; `data = none` models a NULL `data` pointer.
    `size`, `capacity` and `data_size` are the corresponding struct fields.
  * Every `malloc`/`realloc` call site takes an explicit `Bool` telling
    whether that allocation succeeds; `realloc` preserves the old prefix and
    fills fresh slots with `0` (uninitialized bytes are modelled as `0`;
    no claim reads a slot outside the live region).
  * The destructor callback (`del_fn`) mutates no vector state, so it is
    kept only as a `Bool` flag and transitions ignore it.
  * `(size_t)((double)c * 1.5)` is modelled as `3 * c / 2` and
    `(size_t)((double)c * 0.25)`, `(size_t)((double)c * 0.5)` as `c / 4`,
    `c / 2`: the factors are powers of two (exact) except `1.5`, which is
    exact for every capacity below `2 ^ 52`, far beyond any allocatable
    element count.
  * Writes past the end of the allocated region (which are heap overflows
    in C) extend the modelled list, so `data` length greater than
    `capacity` marks an out-of-bounds write having happened.
-/

/-- Model of the `genVec` struct from `gen_vector.h`. -/
structure GenVec where
  data : Option (List Nat)
  size : Nat
  capacity : Nat
  dataSize : Nat
  delFn : Bool
  deriving Repr, DecidableEq

/-- The bytes of the backing region (empty when the pointer is NULL). -/
def bufList (b : GenVec) : List Nat := b.data.getD []

/-- The live elements: slots `0 .. size-1` of the backing region. -/
def liveBytes (b : GenVec) : List Nat := (bufList b).take b.size

/-- `realloc` on the modelled region: keep the old contents (truncated to
the new slot count), extend with `0`-filled fresh slots. -/
def reallocBuf (d : Option (List Nat)) (n : Nat) : List Nat :=
  (d.getD []).take n ++ List.replicate (n - (d.getD []).length) 0

/-- `memcpy`/`memmove` of the block `xs` to offset `i` of region `l`. -/
def listWrite (l : List Nat) (i : Nat) (xs : List Nat) : List Nat :=
  l.take i ++ xs ++ l.drop (i + xs.length)

/-- `genVec_init` (`gen_vector.c:17`).  `vecAllocOk`/`dataAllocOk` are the
outcomes of the two `malloc` calls. -/
def genVec_init (n dataSize : Nat) (vecAllocOk dataAllocOk : Bool)
    (delFn : Bool) : Option GenVec :=
  if dataSize = 0 then none
  else if ¬vecAllocOk then none
  else if 0 < n ∧ ¬dataAllocOk then none
  else some { data := if 0 < n then some (List.replicate n 0) else none,
              size := 0, capacity := n, dataSize := dataSize, delFn := delFn }

/-- `genVec_init_val` (`gen_vector.c:48`): `val = none` models a NULL `val`
pointer.  Note the `n = 0` branch returns the (empty) vector, not NULL. -/
def genVec_init_val (n : Nat) (val : Option Nat) (dataSize : Nat)
    (vecAllocOk dataAllocOk : Bool) (delFn : Bool) : Option GenVec :=
  match val with
  | none => none
  | some v =>
    match genVec_init n dataSize vecAllocOk dataAllocOk delFn with
    | none => none
    | some vec =>
      if n = 0 then some vec
      else some { vec with size := n, data := some (List.replicate n v) }

/-- `genVec_grow` (`gen_vector.c:411`). -/
def genVec_grow (v : GenVec) (allocOk : Bool) : GenVec :=
  let newCap := if v.capacity < 4 then v.capacity + 1 else 3 * v.capacity / 2
  if allocOk then
    { v with data := some (reallocBuf v.data newCap), capacity := newCap }
  else v

/-- `genVec_shrink` (`gen_vector.c:434`). -/
def genVec_shrink (v : GenVec) (allocOk : Bool) : GenVec :=
  let reduced := v.capacity / 2
  if reduced < v.size ∨ reduced = 0 then v
  else if allocOk then
    { v with data := some (reallocBuf v.data reduced), capacity := reduced }
  else v

/-- `genVec_reserve` (`gen_vector.c:115`). -/
def genVec_reserve (v : GenVec) (newCap : Nat) (allocOk : Bool) : GenVec :=
  if newCap ≤ v.capacity then v
  else if allocOk then
    { v with data := some (reallocBuf v.data newCap), capacity := newCap }
  else v

/-- `genVec_push` (`gen_vector.c:137`).  Mirrors the source exactly: after a
failed grow the `!vec->data` test is the only failure check, so with a
non-NULL `data` the element is still written (out of bounds) and `size`
still increments. -/
def genVec_push (v : GenVec) (x : Nat) (allocOk : Bool) : GenVec :=
  let v := if v.capacity ≤ v.size ∨ v.data = none then genVec_grow v allocOk else v
  match v.data with
  | none => v
  | some d => { v with data := some (listWrite d v.size [x]), size := v.size + 1 }

/-- `genVec_pop` (`gen_vector.c:160`).  The copy into `popped` / destructor
call touch no vector state and are omitted; the returned `Int` is the C
return value. -/
def genVec_pop (v : GenVec) (allocOk : Bool) : Int × GenVec :=
  if v.size = 0 then (-1, v)
  else
    let v := { v with size := v.size - 1 }
    let v := if v.size ≤ v.capacity / 4 then genVec_shrink v allocOk else v
    (0, v)

/-- `genVec_get` (`gen_vector.c:186`): `none` models the diagnostic-and-no-
write path (out-of-bounds index). -/
def genVec_get (v : GenVec) (i : Nat) : Option Nat :=
  if v.size ≤ i then none else some ((bufList v).getD i 0)

/-- `genVec_insert` (`gen_vector.c:204`).  The source has no `data` NULL
check after `genVec_grow` here; the `none` branch (a NULL dereference in C,
unreachable for any vector with live elements) is modelled as a no-op. -/
def genVec_insert (v : GenVec) (i : Nat) (x : Nat) (allocOk : Bool) : GenVec :=
  if v.size < i then v
  else if i = v.size then genVec_push v x allocOk
  else
    let v := if v.capacity ≤ v.size ∨ v.data = none then genVec_grow v allocOk else v
    match v.data with
    | none => v
    | some d =>
      let shift := v.size - i
      let d := listWrite d (i + 1) ((d.drop i).take shift)
      let d := listWrite d i [x]
      { v with data := some d, size := v.size + 1 }

/-- `genVec_insert_multi` (`gen_vector.c:239`).  `xs` is the block of
`num_data` elements.  As in the source, `size` is bumped before the
reserve and the only failure check afterwards is `!vec->data`, so a failed
`realloc` on a non-NULL buffer still shifts and writes (out of bounds). -/
def genVec_insert_multi (v : GenVec) (i : Nat) (xs : List Nat)
    (allocOk : Bool) : GenVec :=
  if xs.length = 0 then v
  else if v.size < i then v
  else
    let shift := v.size - i
    let v1 : GenVec := { v with size := v.size + xs.length }
    let v2 := genVec_reserve v1 v1.size allocOk
    match v2.data with
    | none => { v2 with size := v2.size - xs.length }
    | some d =>
      let d := if 0 < shift then listWrite d (i + xs.length) ((d.drop i).take shift) else d
      let d := listWrite d i xs
      { v2 with data := some d }

/-- `genVec_remove` (`gen_vector.c:276`). -/
def genVec_remove (v : GenVec) (i : Nat) (allocOk : Bool) : GenVec :=
  if v.size ≤ i then v
  else
    let shift := v.size - i - 1
    let v :=
      match v.data with
      | none => v
      | some d =>
        if 0 < shift then
          { v with data := some (listWrite d i ((d.drop (i + 1)).take shift)) }
        else v
    let v := { v with size := v.size - 1 }
    if v.size ≤ v.capacity / 4 then genVec_shrink v allocOk else v

/-- `genVec_replace` (`gen_vector.c:309`). -/
def genVec_replace (v : GenVec) (i : Nat) (x : Nat) : GenVec :=
  if v.size ≤ i then v
  else
    match v.data with
    | none => v
    | some d => { v with data := some (listWrite d i [x]) }

/-- `genVec_clear` (`gen_vector.c:93`). -/
def genVec_clear (v : GenVec) : GenVec :=
  { v with data := none, size := 0, capacity := 0 }

/-- `genVec_size` (`gen_vector.h:46`): `none` models a NULL vector pointer. -/
def genVec_size : Option GenVec → Nat
  | none => 0
  | some v => v.size

/-- `genVec_empty` (`gen_vector.h:50`): C `int` result, `none` models NULL. -/
def genVec_empty : Option GenVec → Nat
  | none => 0
  | some v => if v.size = 0 then 1 else 0

/-!
String layer (`String.c`, `String.h`).  A C string argument (`const char*`)
is modelled as a `List Nat` of bytes; every site that calls `strlen` or
lets the libc scan to the terminator uses `cstrView`, the prefix before the
first zero byte, exactly as the pointer-based code does.  The `String`
operations below act on the owned buffer (`str->buffer`) after the
source's null-pointer argument checks have passed; `StrS` keeps the
possibly-NULL buffer pointer for `string_to_cstr`.
-/

/-- Model of the `String` struct from `String.h` (`buffer = none` models a
NULL buffer pointer). -/
structure StrS where
  buffer : Option GenVec

/-- Bytes of a region up to (excluding) the first zero byte: what libc
sees when it reads the region as a C string. -/
def cstrView (l : List Nat) : List Nat := l.takeWhile (fun b => b != 0)

/-- `string_len` (`String.h:21`), on the buffer. -/
def string_len (b : GenVec) : Nat := if 0 < b.size then b.size - 1 else 0

/-- The logical content of a string buffer: bytes `0 .. length-1`. -/
def contentOf (b : GenVec) : List Nat := (liveBytes b).take (string_len b)

/-- `string_to_cstr` (`String.c:111`) as the full function on the possibly
NULL string / buffer pointers.  The result models the returned pointer:
`some l` is a readable C string with bytes `l`, `none` is a NULL return
(which happens exactly when `size > 0` but `data` is NULL). -/
def string_to_cstr (s : Option StrS) : Option (List Nat) :=
  match s with
  | none => some []
  | some s =>
    match s.buffer with
    | none => some []
    | some b => if b.size = 0 then some [] else b.data.map cstrView

/-- `string_to_cstr` restricted to a live buffer, as used by the other
String operations internally. -/
def toCStr (b : GenVec) : List Nat :=
  if b.size = 0 then [] else cstrView (bufList b)

/-- `ensure_null_terminated` (`String.c:11`). -/
def ensure_null_terminated (b : GenVec) (allocOk : Bool) : GenVec :=
  if b.size = 0 ∨ (bufList b).getD (b.size - 1) 0 ≠ 0 then genVec_push b 0 allocOk
  else b

/-- `string_create` (`String.c:22`), with its allocations succeeding;
`allocOk` is the outcome of the grow inside the terminator push. -/
def string_create (allocOk : Bool) : GenVec :=
  ensure_null_terminated
    { data := none, size := 0, capacity := 0, dataSize := 1, delFn := false }
    allocOk

/-- `string_append_cstr` (`String.c:119`).  `reserveOk` is the realloc of
the `genVec_insert_multi` reserve, `pushOk` the grow inside the final
terminator push. -/
def string_append_cstr (b : GenVec) (cs : List Nat)
    (reserveOk pushOk : Bool) : GenVec :=
  let cs := cstrView cs
  if cs.length = 0 then b
  else
    let wp := b.size
    let step : Nat × GenVec :=
      if 0 < wp then
        match genVec_get b (wp - 1) with
        | some c => if c = 0 then (wp - 1, { b with size := b.size - 1 }) else (wp, b)
        | none => (wp, b)
      else (wp, b)
    let b := genVec_insert_multi step.2 step.1 cs reserveOk
    ensure_null_terminated b pushOk

/-- `string_from_cstr` (`String.c:59`) with all allocations succeeding
except as flagged. -/
def string_from_cstr (cs : List Nat) (createOk reserveOk pushOk : Bool) : GenVec :=
  string_append_cstr (string_create createOk) cs reserveOk pushOk

/-- `string_append_string` (`String.c:146`). -/
def string_append_string (b other : GenVec) (reserveOk pushOk : Bool) : GenVec :=
  string_append_cstr b (toCStr other) reserveOk pushOk

/-- `string_append_char` (`String.c:154`). -/
def string_append_char (b : GenVec) (c : Nat)
    (shrinkOk pushOk ensureOk : Bool) : GenVec :=
  let b := if 0 < b.size then (genVec_pop b shrinkOk).2 else b
  let b := genVec_push b c pushOk
  ensure_null_terminated b ensureOk

/-- `string_insert_char` (`String.c:169`). -/
def string_insert_char (b : GenVec) (i : Nat) (c : Nat)
    (shrinkOk pushOk ensureOk insOk ensOk2 : Bool) : GenVec :=
  if string_len b ≤ i then string_append_char b c shrinkOk pushOk ensureOk
  else ensure_null_terminated (genVec_insert b i c insOk) ensOk2

/-- `string_insert_cstr` (`String.c:185`). -/
def string_insert_cstr (b : GenVec) (i : Nat) (cs : List Nat)
    (reserveOk pushOk insOk ensOk2 : Bool) : GenVec :=
  if string_len b ≤ i then string_append_cstr b cs reserveOk pushOk
  else ensure_null_terminated (genVec_insert_multi b i (cstrView cs) insOk) ensOk2

/-- `string_insert_string` (`String.c:200`).  The count is
`strlen(string_to_cstr(other))` while the data pointer is `other`'s raw
buffer, so the copied block is the first `(toCStr other).length` region
bytes. -/
def string_insert_string (b : GenVec) (i : Nat) (other : GenVec)
    (reserveOk pushOk insOk ensOk2 : Bool) : GenVec :=
  if string_len b ≤ i then string_append_string b other reserveOk pushOk
  else
    ensure_null_terminated
      (genVec_insert_multi b i ((bufList other).take (toCStr other).length) insOk)
      ensOk2

/-- `string_remove_char` (`String.c:217`). -/
def string_remove_char (b : GenVec) (i : Nat) (shrinkOk pushOk : Bool) : GenVec :=
  if string_len b ≤ i then b
  else ensure_null_terminated (genVec_remove b i shrinkOk) pushOk

/-- `string_clear` (`String.c:234`). -/
def string_clear (b : GenVec) (pushOk : Bool) : GenVec :=
  ensure_null_terminated (genVec_clear b) pushOk

/-- `string_at` (`String.c:244`). -/
def string_at (b : GenVec) (i : Nat) : Nat :=
  if string_len b ≤ i then 0 else (genVec_get b i).getD 0

/-- `string_set_char` (`String.c:255`). -/
def string_set_char (b : GenVec) (i : Nat) (c : Nat) : GenVec :=
  if string_len b ≤ i then b else genVec_replace b i c

/-- `strcmp` on terminator-free views: returns the (signed) difference of
the first differing byte pair, a missing byte reading as the zero
terminator. -/
def strcmpList : List Nat → List Nat → Int
  | [], [] => 0
  | [], b :: _ => 0 - (b : Int)
  | a :: _, [] => (a : Int)
  | a :: as, b :: bs => if a = b then strcmpList as bs else (a : Int) - (b : Int)

/-- `string_compare` (`String.c:263`) on two non-NULL strings. -/
def string_compare (a b : GenVec) : Int := strcmpList (toCStr a) (toCStr b)

/-- `strchr` as an index search: scans the C string including its
terminator, so searching for the zero byte finds the terminator position. -/
def strchrIdx : List Nat → Nat → Option Nat
  | [], c => if c = 0 then some 0 else none
  | b :: bs, c => if b = c then some 0 else (strchrIdx bs c).map (· + 1)

/-- `string_find_char` (`String.c:280`). -/
def string_find_char (b : GenVec) (c : Nat) : Int :=
  match strchrIdx (toCStr b) c with
  | some i => (i : Int)
  | none => -1

/-- `strstr` as an index search: the first offset whose suffix starts with
the needle; an empty needle matches at offset `0`. -/
def strstrIdx : List Nat → List Nat → Option Nat
  | hay, needle =>
    if needle.isPrefixOf hay then some 0
    else
      match hay with
      | [] => none
      | _ :: t => (strstrIdx t needle).map (· + 1)

/-- `string_find_cstr` (`String.c:288`): `sub = none` models a NULL needle
pointer. -/
def string_find_cstr (b : GenVec) (sub : Option (List Nat)) : Int :=
  match sub with
  | none => -1
  | some sub =>
    match strstrIdx (toCStr b) (cstrView sub) with
    | some i => (i : Int)
    | none => -1

/-- `string_substr` (`String.c:296`): `none` is the NULL failure return.
The copied block starts at `string_to_cstr(str) + start`, i.e. at offset
`start` of the raw buffer. -/
def string_substr (b : GenVec) (start length : Nat)
    (createOk insOk ensOk : Bool) : Option GenVec :=
  if string_len b ≤ start then none
  else
    let result := string_create createOk
    let e := min (start + length) (string_len b)
    let actual := e - start
    if 0 < actual then
      let result := if 0 < result.size then { result with size := result.size - 1 } else result
      let bytes := ((bufList b).drop start).take actual
      let result := genVec_insert_multi result 0 bytes insOk
      some (ensure_null_terminated result ensOk)
    else some result

/-- Purely lexicographic three-way comparison of byte lists; this is the
ordering the specification describes for `compare` ("lexicographic
byte-wise ordering of their full logical contents"). -/
def lexCompare : List Nat → List Nat → Int
  | [], [] => 0
  | [], _ :: _ => -1
  | _ :: _, [] => 1
  | a :: as, b :: bs => if a < b then -1 else if b < a then 1 else lexCompare as bs

/-!
Well-formedness predicates and list-surgery helper lemmas.
-/

/-- A structurally sound vector: non-NULL region of exactly `capacity`
slots holding at least `size` live elements. -/
def Good (b : GenVec) : Prop :=
  b.data.isSome = true ∧ (bufList b).length = b.capacity ∧ b.size ≤ b.capacity

/-- The string-buffer invariant: structurally sound, and the live bytes are
some zero-free content followed by the zero terminator. -/
def StrWF (b : GenVec) : Prop :=
  Good b ∧ ∃ c, liveBytes b = c ++ [0] ∧ 0 ∉ c

lemma length_reallocBuf (d : Option (List Nat)) (n : Nat) :
    (reallocBuf d n).length = n := by
  simp only [reallocBuf, List.length_append, List.length_take, List.length_replicate]
  omega

lemma take_reallocBuf (l : List Nat) (n m : Nat) (h : m ≤ n) (h2 : m ≤ l.length) :
    (reallocBuf (some l) n).take m = l.take m := by
  simp only [reallocBuf, Option.getD_some]
  rw [List.take_append_of_le_length (by simp [List.length_take]; omega), List.take_take]
  simp [Nat.min_def, h]

lemma reallocBuf_of_ge (l : List Nat) (n : Nat) (h : l.length ≤ n) :
    reallocBuf (some l) n = l ++ List.replicate (n - l.length) 0 := by
  simp [reallocBuf, List.take_of_length_le h]

lemma listWrite_length (l : List Nat) (i : Nat) (xs : List Nat)
    (h : i + xs.length ≤ l.length) : (listWrite l i xs).length = l.length := by
  simp only [listWrite, List.length_append, List.length_take, List.length_drop]
  omega

/-- The region after a block write, read back as `prefix ++ block ++ k` more
slots. -/
lemma take_listWrite (l : List Nat) (i : Nat) (xs : List Nat) (k : Nat)
    (h : i ≤ l.length) :
    (listWrite l i xs).take (i + xs.length + k) =
      l.take i ++ xs ++ (l.drop (i + xs.length)).take k := by
  have hlen : (l.take i).length = i := by rw [List.length_take]; omega
  have hlen2 : (l.take i ++ xs).length = i + xs.length := by simp [hlen]
  simp only [listWrite, ← List.append_assoc]
  rw [List.take_append_eq_append_take, List.take_of_length_le (by omega), hlen2]
  have hk : i + xs.length + k - (i + xs.length) = k := by omega
  rw [hk]

lemma getD_take (l : List Nat) (j s : Nat) (h : j < s) :
    (l.take s).getD j 0 = l.getD j 0 := by
  rw [List.getD_eq_getElem?_getD, List.getD_eq_getElem?_getD, List.getElem?_take,
    if_pos h]

lemma take_listWrite_exact (l : List Nat) (i : Nat) (xs : List Nat)
    (h : i ≤ l.length) :
    (listWrite l i xs).take (i + xs.length) = l.take i ++ xs := by
  have h0 := take_listWrite l i xs 0 h
  simpa using h0

lemma reserve_fail (v : GenVec) (n : Nat) : genVec_reserve v n false = v := by
  unfold genVec_reserve
  split
  · rfl
  · simp

lemma grow_good (v : GenVec) (h : Good v) :
    Good (genVec_grow v true) ∧ (genVec_grow v true).size = v.size ∧
    liveBytes (genVec_grow v true) = liveBytes v ∧
    v.capacity < (genVec_grow v true).capacity := by
  obtain ⟨hs, hl, hsc⟩ := h
  obtain ⟨l, hd⟩ := Option.isSome_iff_exists.mp hs
  have hbl : bufList v = l := by simp [bufList, hd]
  have hll : l.length = v.capacity := by rw [← hbl]; exact hl
  set nc := if v.capacity < 4 then v.capacity + 1 else 3 * v.capacity / 2 with hnc
  have hcaplt : v.capacity < nc := by rw [hnc]; split <;> omega
  have hgrow : genVec_grow v true =
      { v with data := some (reallocBuf v.data nc), capacity := nc } := by
    simp [genVec_grow, hnc]
  rw [hgrow]
  refine ⟨⟨rfl, ?_, by simpa using hsc.trans hcaplt.le⟩, rfl, ?_, by simpa using hcaplt⟩
  · simp [bufList, length_reallocBuf]
  · simp only [liveBytes, bufList, Option.getD_some, hd]
    exact take_reallocBuf l nc v.size (by omega) (by omega)

lemma reserve_good (v : GenVec) (n : Nat) (h : Good v) :
    Good (genVec_reserve v n true) ∧ (genVec_reserve v n true).size = v.size ∧
    liveBytes (genVec_reserve v n true) = liveBytes v ∧
    (genVec_reserve v n true).capacity = max v.capacity n := by
  obtain ⟨hs, hl, hsc⟩ := h
  obtain ⟨l, hd⟩ := Option.isSome_iff_exists.mp hs
  have hbl : bufList v = l := by simp [bufList, hd]
  have hll : l.length = v.capacity := by rw [← hbl]; exact hl
  by_cases hle : n ≤ v.capacity
  · have hres : genVec_reserve v n true = v := by simp [genVec_reserve, hle]
    rw [hres]
    exact ⟨⟨hs, hl, hsc⟩, rfl, rfl, by omega⟩
  · have hres : genVec_reserve v n true =
        { v with data := some (reallocBuf v.data n), capacity := n } := by
      simp [genVec_reserve, hle]
    rw [hres]
    refine ⟨⟨rfl, ?_, by simpa using by omega⟩, rfl, ?_, by simpa using by omega⟩
    · simp [bufList, length_reallocBuf]
    · simp only [liveBytes, bufList, Option.getD_some, hd]
      exact take_reallocBuf l n v.size (by omega) (by omega)

lemma push_good (v : GenVec) (x : Nat) (h : Good v) :
    Good (genVec_push v x true) ∧ (genVec_push v x true).size = v.size + 1 ∧
    liveBytes (genVec_push v x true) = liveBytes v ++ [x] ∧
    v.capacity ≤ (genVec_push v x true).capacity := by
  set w := if v.capacity ≤ v.size ∨ v.data = none then genVec_grow v true else v with hw
  have hwf : Good w ∧ w.size = v.size ∧ liveBytes w = liveBytes v ∧
      v.capacity ≤ w.capacity ∧ w.size < w.capacity := by
    rw [hw]
    by_cases hc : v.capacity ≤ v.size ∨ v.data = none
    · rw [if_pos hc]
      have hg := grow_good v h
      have h1 := hg.2.2.2
      have h2 := h.2.2
      have h3 := hg.2.1
      exact ⟨hg.1, hg.2.1, hg.2.2.1, h1.le, by omega⟩
    · rw [if_neg hc]
      push_neg at hc
      have h2 := h.2.2
      exact ⟨h, rfl, rfl, le_refl _, by omega⟩
  obtain ⟨⟨hs', hl', hsc'⟩, hsize', hlive', hcap', hlt'⟩ := hwf
  obtain ⟨d, hd'⟩ := Option.isSome_iff_exists.mp hs'
  have hld : d.length = w.capacity := by
    rw [← hl']; simp [bufList, hd']
  have hpush : genVec_push v x true =
      { w with data := some (listWrite d w.size [x]), size := w.size + 1 } := by
    simp only [genVec_push]
    rw [← hw, hd']
  rw [hpush]
  refine ⟨⟨rfl, ?_, by simpa using by omega⟩, by simpa using by omega, ?_, by simpa using hcap'⟩
  · simp only [bufList, Option.getD_some]
    rw [listWrite_length d w.size [x] (by simp; omega)]
    simpa using hld
  · simp only [liveBytes, bufList, Option.getD_some]
    have := take_listWrite_exact d w.size [x] (by omega)
    simp only [List.length_singleton] at this
    rw [this]
    have hlw : List.take w.size d = liveBytes w := by simp [liveBytes, bufList, hd']
    rw [hlw, hlive']
    simp [liveBytes, bufList]

lemma shrink_spec (v : GenVec) (allocOk : Bool) (h : Good v) :
    Good (genVec_shrink v allocOk) ∧ (genVec_shrink v allocOk).size = v.size ∧
    liveBytes (genVec_shrink v allocOk) = liveBytes v ∧
    (genVec_shrink v allocOk).capacity =
      (if v.capacity / 2 < v.size ∨ v.capacity / 2 = 0 ∨ allocOk = false
       then v.capacity else v.capacity / 2) := by
  obtain ⟨hs, hl, hsc⟩ := h
  obtain ⟨l, hd⟩ := Option.isSome_iff_exists.mp hs
  have hll : l.length = v.capacity := by rw [← hl]; simp [bufList, hd]
  by_cases hskip : v.capacity / 2 < v.size ∨ v.capacity / 2 = 0
  · have heq : genVec_shrink v allocOk = v := by
      simp [genVec_shrink, hskip]
    rw [heq]
    exact ⟨⟨hs, hl, hsc⟩, rfl, rfl, by rw [if_pos (by tauto)]⟩
  · push_neg at hskip
    cases allocOk with
    | false =>
      have heq : genVec_shrink v false = v := by
        simp only [genVec_shrink]
        rw [if_neg (by omega)]
        simp
      rw [heq]
      refine ⟨⟨hs, hl, hsc⟩, rfl, rfl, by rw [if_pos (by tauto)]⟩
    | true =>
      have heq : genVec_shrink v true =
          { v with data := some (reallocBuf v.data (v.capacity / 2)),
                   capacity := v.capacity / 2 } := by
        simp only [genVec_shrink]
        rw [if_neg (by omega)]
        simp
      rw [heq]
      have hns : ¬ (v.capacity / 2 < v.size ∨ v.capacity / 2 = 0 ∨ (true : Bool) = false) := by
        simp
        omega
      refine ⟨⟨rfl, ?_, by simpa using by omega⟩, rfl, ?_, by rw [if_neg hns]⟩
      · simp [bufList, length_reallocBuf]
      · simp only [liveBytes, bufList, Option.getD_some, hd]
        exact take_reallocBuf l _ v.size (by omega) (by omega)

lemma pop_spec (v : GenVec) (allocOk : Bool) (h : Good v) (hpos : 0 < v.size) :
    (genVec_pop v allocOk).1 = 0 ∧
    Good (genVec_pop v allocOk).2 ∧ (genVec_pop v allocOk).2.size = v.size - 1 ∧
    liveBytes (genVec_pop v allocOk).2 = (liveBytes v).take (v.size - 1) ∧
    (genVec_pop v allocOk).2.capacity =
      (if v.size - 1 ≤ v.capacity / 4 then
        (if v.capacity / 2 < v.size - 1 ∨ v.capacity / 2 = 0 ∨ allocOk = false
         then v.capacity else v.capacity / 2)
       else v.capacity) := by
  obtain ⟨hs, hl, hsc⟩ := h
  obtain ⟨l, hd⟩ := Option.isSome_iff_exists.mp hs
  have hll : l.length = v.capacity := by rw [← hl]; simp [bufList, hd]
  have hgood1 : Good { v with size := v.size - 1 } := ⟨hs, hl, by simp; omega⟩
  have hlive1 : liveBytes { v with size := v.size - 1 } = (liveBytes v).take (v.size - 1) := by
    simp [liveBytes, bufList, List.take_take, Nat.min_def]
  have hpop : genVec_pop v allocOk =
      (0, if v.size - 1 ≤ v.capacity / 4 then genVec_shrink { v with size := v.size - 1 } allocOk
          else { v with size := v.size - 1 }) := by
    simp only [genVec_pop]
    rw [if_neg (by omega)]
  by_cases htr : v.size - 1 ≤ v.capacity / 4
  · have hsh := shrink_spec { v with size := v.size - 1 } allocOk hgood1
    obtain ⟨hshg, hshs, hshl, hshc⟩ := hsh
    dsimp only at hshs hshc
    rw [hpop, if_pos htr, if_pos htr]
    exact ⟨rfl, hshg, hshs, hshl.trans hlive1, hshc⟩
  · rw [hpop, if_neg htr]
    exact ⟨rfl, hgood1, rfl, hlive1, by rw [if_neg htr]⟩

lemma replace_spec (v : GenVec) (i x : Nat) (h : Good v) (hi : i < v.size) :
    Good (genVec_replace v i x) ∧ (genVec_replace v i x).size = v.size ∧
    (genVec_replace v i x).capacity = v.capacity ∧
    liveBytes (genVec_replace v i x) =
      (liveBytes v).take i ++ [x] ++ (liveBytes v).drop (i + 1) := by
  obtain ⟨hs, hl, hsc⟩ := h
  obtain ⟨l, hd⟩ := Option.isSome_iff_exists.mp hs
  have hll : l.length = v.capacity := by rw [← hl]; simp [bufList, hd]
  have hrep : genVec_replace v i x = { v with data := some (listWrite l i [x]) } := by
    simp only [genVec_replace, hd]
    rw [if_neg (by omega)]
  rw [hrep]
  refine ⟨⟨rfl, ?_, by simpa using hsc⟩, rfl, rfl, ?_⟩
  · simp only [bufList, Option.getD_some]
    rw [listWrite_length l i [x] (by simp; omega)]
    simpa using hll
  · simp only [liveBytes, bufList, hd, Option.getD_some]
    have hw := take_listWrite l i [x] (v.size - i - 1) (by omega)
    simp only [List.length_singleton] at hw
    have harith : i + 1 + (v.size - i - 1) = v.size := by omega
    rw [harith] at hw
    rw [hw]
    rw [List.take_take, Nat.min_def, if_pos (by omega)]
    rw [List.drop_take]
    have hix : v.size - (i + 1) = v.size - i - 1 := by omega
    rw [hix]

lemma remove_spec (v : GenVec) (i : Nat) (allocOk : Bool) (h : Good v)
    (hi : i < v.size) :
    Good (genVec_remove v i allocOk) ∧
    (genVec_remove v i allocOk).size = v.size - 1 ∧
    liveBytes (genVec_remove v i allocOk) =
      (liveBytes v).take i ++ (liveBytes v).drop (i + 1) ∧
    (genVec_remove v i allocOk).capacity =
      (if v.size - 1 ≤ v.capacity / 4 then
        (if v.capacity / 2 < v.size - 1 ∨ v.capacity / 2 = 0 ∨ allocOk = false
         then v.capacity else v.capacity / 2)
       else v.capacity) := by
  obtain ⟨hs, hl, hsc⟩ := h
  obtain ⟨l, hd⟩ := Option.isSome_iff_exists.mp hs
  have hll : l.length = v.capacity := by rw [← hl]; simp [bufList, hd]
  have htk : (liveBytes v).take i = l.take i := by
    simp only [liveBytes, bufList, hd, Option.getD_some]
    rw [List.take_take, Nat.min_def, if_pos (by omega)]
  have hdr : (liveBytes v).drop (i + 1) = (l.drop (i + 1)).take (v.size - i - 1) := by
    simp only [liveBytes, bufList, hd, Option.getD_some]
    rw [List.drop_take]
    congr 1
  by_cases h0 : 0 < v.size - i - 1
  · set w : GenVec :=
      { v with data := some (listWrite l i ((l.drop (i + 1)).take (v.size - i - 1))),
               size := v.size - 1 } with hwdef
    have hseglen : ((l.drop (i + 1)).take (v.size - i - 1)).length = v.size - i - 1 := by
      rw [List.length_take, List.length_drop]
      omega
    have hgw : Good w := by
      refine ⟨rfl, ?_, by simp [hwdef]; omega⟩
      simp only [hwdef, bufList, Option.getD_some]
      rw [listWrite_length l i _ (by omega)]
      simpa using hll
    have hlw : liveBytes w = (liveBytes v).take i ++ (liveBytes v).drop (i + 1) := by
      rw [htk, hdr]
      simp only [hwdef, liveBytes, bufList, Option.getD_some]
      have hw := take_listWrite_exact l i ((l.drop (i + 1)).take (v.size - i - 1)) (by omega)
      rw [hseglen] at hw
      have harith : i + (v.size - i - 1) = v.size - 1 := by omega
      rw [harith] at hw
      exact hw
    have hrem : genVec_remove v i allocOk =
        (if w.size ≤ w.capacity / 4 then genVec_shrink w allocOk else w) := by
      simp only [genVec_remove, hd]
      rw [if_neg (by omega), if_pos h0]
    by_cases htr : v.size - 1 ≤ v.capacity / 4
    · have hsh := shrink_spec w allocOk hgw
      obtain ⟨hshg, hshs, hshl, hshc⟩ := hsh
      dsimp only [hwdef] at hshs hshc
      rw [hrem, if_pos (by simp [hwdef]; omega)]
      exact ⟨hshg, hshs, hshl.trans hlw, by rw [hshc, if_pos htr]⟩
    · rw [hrem, if_neg (by simp [hwdef]; omega)]
      exact ⟨hgw, rfl, hlw, by rw [if_neg htr]⟩
  · set w : GenVec := { v with size := v.size - 1 } with hwdef
    have hgw : Good w := ⟨hs, hl, by simp [hwdef]; omega⟩
    have hlw : liveBytes w = (liveBytes v).take i ++ (liveBytes v).drop (i + 1) := by
      rw [htk, hdr]
      have h1 : v.size - i - 1 = 0 := by omega
      rw [h1]
      simp only [List.take_zero, List.append_nil]
      simp only [hwdef, liveBytes, bufList, hd, Option.getD_some]
      congr 1
      omega
    have hrem : genVec_remove v i allocOk =
        (if w.size ≤ w.capacity / 4 then genVec_shrink w allocOk else w) := by
      simp only [genVec_remove, hd]
      rw [if_neg (by omega), if_neg h0]
    by_cases htr : v.size - 1 ≤ v.capacity / 4
    · have hsh := shrink_spec w allocOk hgw
      obtain ⟨hshg, hshs, hshl, hshc⟩ := hsh
      dsimp only [hwdef] at hshs hshc
      rw [hrem, if_pos (by simp [hwdef]; omega)]
      exact ⟨hshg, hshs, hshl.trans hlw, by rw [hshc, if_pos htr]⟩
    · rw [hrem, if_neg (by simp [hwdef]; omega)]
      exact ⟨hgw, rfl, hlw, by rw [if_neg htr]⟩

lemma reserve_bump (v : GenVec) (k : Nat) (h : Good v) :
    ∃ d1, (genVec_reserve { v with size := v.size + k } (v.size + k) true).data = some d1 ∧
      d1.length = (genVec_reserve { v with size := v.size + k } (v.size + k) true).capacity ∧
      (genVec_reserve { v with size := v.size + k } (v.size + k) true).size = v.size + k ∧
      (genVec_reserve { v with size := v.size + k } (v.size + k) true).capacity
        = max v.capacity (v.size + k) ∧
      d1.take v.size = liveBytes v := by
  obtain ⟨hs, hl, hsc⟩ := h
  obtain ⟨l, hd⟩ := Option.isSome_iff_exists.mp hs
  have hll : l.length = v.capacity := by rw [← hl]; simp [bufList, hd]
  have hlive : liveBytes v = l.take v.size := by simp [liveBytes, bufList, hd]
  by_cases hcase : v.size + k ≤ v.capacity
  · have hres : genVec_reserve { v with size := v.size + k } (v.size + k) true
        = { v with size := v.size + k } := by
      simp only [genVec_reserve]
      rw [if_pos (by simpa using hcase)]
    rw [hres]
    exact ⟨l, hd, by simpa using by omega, rfl, by simpa using by omega, hlive.symm⟩
  · have hres : genVec_reserve { v with size := v.size + k } (v.size + k) true
        = { v with size := v.size + k, data := some (reallocBuf v.data (v.size + k)),
                   capacity := v.size + k } := by
      simp only [genVec_reserve]
      rw [if_neg (by simpa using hcase)]
      simp
    rw [hres]
    refine ⟨reallocBuf v.data (v.size + k), rfl, ?_, rfl, by simpa using by omega, ?_⟩
    · simpa using length_reallocBuf v.data (v.size + k)
    · rw [hd]
      rw [take_reallocBuf l _ _ (by omega) (by omega), hlive]

lemma insert_multi_spec (v : GenVec) (i : Nat) (xs : List Nat) (h : Good v)
    (hi : i ≤ v.size) (hxs : xs ≠ []) :
    Good (genVec_insert_multi v i xs true) ∧
    (genVec_insert_multi v i xs true).size = v.size + xs.length ∧
    liveBytes (genVec_insert_multi v i xs true) =
      (liveBytes v).take i ++ xs ++ (liveBytes v).drop i ∧
    v.capacity ≤ (genVec_insert_multi v i xs true).capacity := by
  have hlen0 : xs.length ≠ 0 := by simpa using hxs
  obtain ⟨d1, hd1, hld1, hsz2, hcap2, htk1⟩ := reserve_bump v xs.length h
  set v2 := genVec_reserve { v with size := v.size + xs.length } (v.size + xs.length) true
    with hv2
  have hlivelen : (liveBytes v).length = v.size := by
    simp only [liveBytes, List.length_take]
    have := h.2.1
    have := h.2.2
    omega
  have hsized1 : v.size ≤ d1.length := by
    rw [hld1, hcap2]
    omega
  have htki : d1.take i = (liveBytes v).take i := by
    rw [← htk1, List.take_take, Nat.min_def, if_pos (by omega)]
  -- the block the memmove reads: the live bytes from `i` on
  have hseg : (d1.drop i).take (v.size - i) = (liveBytes v).drop i := by
    rw [← List.drop_take, ← htk1]
  have hseglen : ((d1.drop i).take (v.size - i)).length = v.size - i := by
    rw [List.length_take, List.length_drop]
    omega
  by_cases h0 : 0 < v.size - i
  · -- the shifted case: memmove then memcpy
    set d2 := listWrite d1 (i + xs.length) ((d1.drop i).take (v.size - i)) with hd2
    have hld2 : d2.length = d1.length := by
      rw [hd2]
      exact listWrite_length _ _ _ (by rw [hseglen]; omega)
    have hins : genVec_insert_multi v i xs true
        = { v2 with data := some (listWrite d2 i xs) } := by
      simp only [genVec_insert_multi]
      rw [if_neg hlen0, if_neg (by omega), ← hv2, hd1]
      dsimp only
      rw [if_pos h0, ← hd2]
    have hA : (d1.take (i + xs.length)).length = i + xs.length := by
      rw [List.length_take]
      omega
    have htk2 : d2.take i = d1.take i := by
      have hle1 : i ≤ (d1.take (i + xs.length)).length := by
        simp only [List.length_take]
        omega
      have hle2 : i ≤ (d1.take (i + xs.length) ++ (d1.drop i).take (v.size - i)).length := by
        simp only [List.length_append, List.length_take, List.length_drop]
        omega
      rw [hd2, listWrite, List.take_append_of_le_length hle2,
        List.take_append_of_le_length hle1, List.take_take, Nat.min_def, if_pos (by omega)]
    have hdr2 : (d2.drop (i + xs.length)).take (v.size - i)
        = (d1.drop i).take (v.size - i) := by
      rw [hd2, listWrite, List.append_assoc, List.drop_left' hA, List.take_left' hseglen]
    have hlive3 : List.take (v.size + xs.length) (listWrite d2 i xs)
        = (liveBytes v).take i ++ xs ++ (liveBytes v).drop i := by
      have hw := take_listWrite d2 i xs (v.size - i) (by omega)
      have harith : i + xs.length + (v.size - i) = v.size + xs.length := by omega
      rw [harith] at hw
      rw [hw, htk2, htki, hdr2, hseg]
    have hld3 : (listWrite d2 i xs).length = d1.length := by
      rw [listWrite_length _ _ _ (by omega), hld2]
    rw [hins]
    refine ⟨⟨rfl, ?_, ?_⟩, by simpa using hsz2, ?_, ?_⟩
    · simp only [bufList, Option.getD_some]
      rw [hld3, hld1]
    · simp only
      rw [hsz2, hcap2]
      omega
    · simp only [liveBytes, bufList, Option.getD_some]
      rw [show ({ v2 with data := some (listWrite d2 i xs) } : GenVec).size = v.size + xs.length
          from by simpa using hsz2]
      exact hlive3
    · simp only
      rw [hcap2]
      omega
  · -- append at the end: no memmove
    have hieq : i = v.size := by omega
    have hins : genVec_insert_multi v i xs true
        = { v2 with data := some (listWrite d1 i xs) } := by
      simp only [genVec_insert_multi]
      rw [if_neg hlen0, if_neg (by omega), ← hv2, hd1]
      dsimp only
      rw [if_neg h0]
    have hlive3 : List.take (v.size + xs.length) (listWrite d1 i xs)
        = (liveBytes v).take i ++ xs ++ (liveBytes v).drop i := by
      have hw := take_listWrite_exact d1 i xs (by omega)
      have hdrop : (liveBytes v).drop i = [] :=
        List.drop_eq_nil_of_le (by rw [hlivelen]; omega)
      rw [hieq] at hw ⊢
      rw [hw, htk1]
      rw [show (liveBytes v).take v.size = liveBytes v from
        List.take_of_length_le (by rw [hlivelen])]
      rw [hieq] at hdrop
      rw [hdrop, List.append_nil]
    have hld3 : (listWrite d1 i xs).length = d1.length := by
      rw [listWrite_length _ _ _ (by omega)]
    rw [hins]
    refine ⟨⟨rfl, ?_, ?_⟩, by simpa using hsz2, ?_, ?_⟩
    · simp only [bufList, Option.getD_some]
      rw [hld3, hld1]
    · simp only
      rw [hsz2, hcap2]
      omega
    · simp only [liveBytes, bufList, Option.getD_some]
      rw [show ({ v2 with data := some (listWrite d1 i xs) } : GenVec).size = v.size + xs.length
          from by simpa using hsz2]
      exact hlive3
    · simp only
      rw [hcap2]
      omega

lemma insert_spec (v : GenVec) (i x : Nat) (h : Good v) (hi : i ≤ v.size) :
    Good (genVec_insert v i x true) ∧
    (genVec_insert v i x true).size = v.size + 1 ∧
    liveBytes (genVec_insert v i x true) =
      (liveBytes v).take i ++ [x] ++ (liveBytes v).drop i ∧
    v.capacity ≤ (genVec_insert v i x true).capacity := by
  have hlivelen : (liveBytes v).length = v.size := by
    simp only [liveBytes, List.length_take]
    have := h.2.1
    have := h.2.2
    omega
  by_cases hie : i = v.size
  · have hins : genVec_insert v i x true = genVec_push v x true := by
      simp only [genVec_insert]
      rw [if_neg (by omega), if_pos hie]
    obtain ⟨hg, hsz, hlv, hcap⟩ := push_good v x h
    have htk : (liveBytes v).take i = liveBytes v :=
      List.take_of_length_le (by omega)
    have hdr : (liveBytes v).drop i = [] :=
      List.drop_eq_nil_of_le (by omega)
    rw [hins]
    exact ⟨hg, hsz, by rw [hlv, htk, hdr, List.append_nil], hcap⟩
  · have hlt : i < v.size := by omega
    set w := if v.capacity ≤ v.size ∨ v.data = none then genVec_grow v true else v with hw
    have hwf : Good w ∧ w.size = v.size ∧ liveBytes w = liveBytes v ∧
        v.capacity ≤ w.capacity ∧ w.size < w.capacity := by
      rw [hw]
      by_cases hc : v.capacity ≤ v.size ∨ v.data = none
      · rw [if_pos hc]
        have hg := grow_good v h
        have h1 := hg.2.2.2
        have h2 := h.2.2
        have h3 := hg.2.1
        exact ⟨hg.1, hg.2.1, hg.2.2.1, h1.le, by omega⟩
      · rw [if_neg hc]
        push_neg at hc
        have h2 := h.2.2
        exact ⟨h, rfl, rfl, le_refl _, by omega⟩
    obtain ⟨⟨hs', hl', hsc'⟩, hsize', hlive', hcap', hlt'⟩ := hwf
    obtain ⟨d, hd'⟩ := Option.isSome_iff_exists.mp hs'
    have hld : d.length = w.capacity := by
      rw [← hl']; simp [bufList, hd']
    have hvsd : v.size < d.length := by omega
    have hdlive : d.take v.size = liveBytes v := by
      rw [← hlive']
      simp only [liveBytes, bufList, hd', Option.getD_some, hsize']
    have htki : d.take i = (liveBytes v).take i := by
      rw [← hdlive, List.take_take, Nat.min_def, if_pos (by omega)]
    have hseg : (d.drop i).take (v.size - i) = (liveBytes v).drop i := by
      rw [← List.drop_take, ← hdlive]
    have hseglen : ((d.drop i).take (v.size - i)).length = v.size - i := by
      rw [List.length_take, List.length_drop]
      omega
    set d2 := listWrite d (i + 1) ((d.drop i).take (v.size - i)) with hd2
    have hld2 : d2.length = d.length := by
      rw [hd2]
      exact listWrite_length _ _ _ (by rw [hseglen]; omega)
    have hins : genVec_insert v i x true =
        { w with data := some (listWrite d2 i [x]), size := w.size + 1 } := by
      simp only [genVec_insert]
      rw [if_neg (by omega), if_neg hie, ← hw, hd']
      dsimp only
      rw [hsize']
    have hA : (d.take (i + 1)).length = i + 1 := by
      rw [List.length_take]
      omega
    have htk2 : d2.take i = d.take i := by
      have hle1 : i ≤ (d.take (i + 1)).length := by
        simp only [List.length_take]
        omega
      have hle2 : i ≤ (d.take (i + 1) ++ (d.drop i).take (v.size - i)).length := by
        simp only [List.length_append, List.length_take, List.length_drop]
        omega
      rw [hd2, listWrite, List.take_append_of_le_length hle2,
        List.take_append_of_le_length hle1, List.take_take, Nat.min_def, if_pos (by omega)]
    have hdr2 : (d2.drop (i + 1)).take (v.size - i)
        = (d.drop i).take (v.size - i) := by
      rw [hd2, listWrite, List.append_assoc, List.drop_left' hA, List.take_left' hseglen]
    have hlive3 : List.take (v.size + 1) (listWrite d2 i [x])
        = (liveBytes v).take i ++ [x] ++ (liveBytes v).drop i := by
      have hwt := take_listWrite d2 i [x] (v.size - i) (by omega)
      simp only [List.length_singleton] at hwt
      have harith : i + 1 + (v.size - i) = v.size + 1 := by omega
      rw [harith] at hwt
      rw [hwt, htk2, htki, hdr2, hseg]
    have hld3 : (listWrite d2 i [x]).length = d.length := by
      rw [listWrite_length _ _ _ (by simp only [List.length_singleton]; omega), hld2]
    rw [hins]
    refine ⟨⟨rfl, ?_, ?_⟩, by simpa using by omega, ?_, ?_⟩
    · simp only [bufList, Option.getD_some]
      rw [hld3, hld]
    · simp only
      omega
    · simp only [liveBytes, bufList, Option.getD_some]
      rw [hsize']
      exact hlive3
    · simp only
      omega

/-!
String-layer facts.
-/

lemma zero_not_mem_cstrView (l : List Nat) : 0 ∉ cstrView l := by
  intro hmem
  have := List.mem_takeWhile_imp hmem
  simp at this

lemma cstrView_append_zero (c rest : List Nat) (hzf : 0 ∉ c) :
    cstrView (c ++ 0 :: rest) = c := by
  induction c with
  | nil => simp [cstrView]
  | cons a as ih =>
    have ha : a ≠ 0 := by intro hq; exact hzf (by simp [hq])
    have has : 0 ∉ as := by intro hq; exact hzf (by simp [hq])
    simp only [List.cons_append, cstrView, List.takeWhile_cons]
    rw [if_pos (by simpa using ha)]
    have := ih has
    simp only [cstrView] at this
    rw [this]

lemma take_cstrView_length (l : List Nat) :
    l.take (cstrView l).length = cstrView l :=
  (List.prefix_iff_eq_take.mp (List.takeWhile_prefix _)).symm

lemma getD_mem_of_lt (l : List Nat) (j : Nat) (hj : j < l.length) :
    l.getD j 0 ∈ l := by
  rw [List.getD_eq_getElem?_getD, List.getElem?_eq_getElem hj]
  simp only [Option.getD_some]
  exact List.getElem_mem hj

lemma liveBytes_length (b : GenVec) (h : Good b) : (liveBytes b).length = b.size := by
  simp only [liveBytes, List.length_take]
  have := h.2.1
  have := h.2.2
  omega

lemma getD_bufList_live (b : GenVec) (j : Nat) (hj : j < b.size) :
    (bufList b).getD j 0 = (liveBytes b).getD j 0 :=
  (getD_take (bufList b) j b.size hj).symm

lemma ensure_of_terminated (b : GenVec) (c : List Nat) (h : Good b)
    (hc : liveBytes b = c ++ [0]) : ensure_null_terminated b true = b := by
  have hlen : (liveBytes b).length = b.size := liveBytes_length b h
  have hsz : b.size = c.length + 1 := by rw [hc] at hlen; simp at hlen; omega
  have hval : (bufList b).getD (b.size - 1) 0 = 0 := by
    rw [getD_bufList_live b _ (by omega), hc]
    rw [List.getD_append_right _ _ _ _ (by omega)]
    simp [hsz]
  simp only [ensure_null_terminated]
  rw [if_neg (by push_neg; exact ⟨by omega, hval⟩)]

lemma ensure_wf_of_zero_free (b : GenVec) (h : Good b) (hzf : 0 ∉ liveBytes b) :
    StrWF (ensure_null_terminated b true) ∧
    liveBytes (ensure_null_terminated b true) = liveBytes b ++ [0] := by
  have hens : ensure_null_terminated b true = genVec_push b 0 true := by
    simp only [ensure_null_terminated]
    by_cases hsz : b.size = 0
    · rw [if_pos (Or.inl hsz)]
    · have hlen : (liveBytes b).length = b.size := liveBytes_length b h
      have hval : (bufList b).getD (b.size - 1) 0 ∈ liveBytes b := by
        rw [getD_bufList_live b _ (by omega)]
        exact getD_mem_of_lt _ _ (by omega)
      rw [if_pos (Or.inr (by intro h0; rw [h0] at hval; exact hzf hval))]
  obtain ⟨hg, hsize, hlive, hcap⟩ := push_good b 0 h
  rw [hens]
  exact ⟨⟨hg, liveBytes b, hlive, hzf⟩, hlive⟩

lemma string_create_eq : string_create true =
    { data := some [0], size := 1, capacity := 1, dataSize := 1, delFn := false } := rfl

lemma string_create_wf : StrWF (string_create true) := by
  rw [string_create_eq]
  exact ⟨⟨rfl, rfl, by decide⟩, [], rfl, by simp⟩

lemma toCStr_of_wf (b : GenVec) (c : List Nat) (hg : Good b)
    (hc : liveBytes b = c ++ [0]) (hzf : 0 ∉ c) : toCStr b = c := by
  have hlen : (liveBytes b).length = b.size := liveBytes_length b hg
  have hsz : b.size = c.length + 1 := by rw [hc] at hlen; simp at hlen; omega
  have hbl : bufList b = c ++ 0 :: (bufList b).drop b.size := by
    conv_lhs => rw [← List.take_append_drop b.size (bufList b)]
    rw [show List.take b.size (bufList b) = liveBytes b from rfl, hc]
    simp
  simp only [toCStr]
  rw [if_neg (by omega), hbl, cstrView_append_zero _ _ hzf]

lemma contentOf_of_wf (b : GenVec) (c : List Nat) (hg : Good b)
    (hc : liveBytes b = c ++ [0]) : contentOf b = c := by
  have hlen : (liveBytes b).length = b.size := liveBytes_length b hg
  have hsz : b.size = c.length + 1 := by rw [hc] at hlen; simp at hlen; omega
  simp only [contentOf, string_len]
  rw [if_pos (by omega), hc]
  rw [List.take_append_of_le_length (by simp; omega)]
  rw [List.take_of_length_le (by omega)]

lemma append_cstr_wf (b : GenVec) (cs : List Nat) (h : StrWF b) :
    StrWF (string_append_cstr b cs true true) := by
  obtain ⟨hg, c, hc, hzf⟩ := h
  have hlen : (liveBytes b).length = b.size := liveBytes_length b hg
  have hsz : b.size = c.length + 1 := by rw [hc] at hlen; simp at hlen; omega
  by_cases hemp : (cstrView cs).length = 0
  · have hnoop : string_append_cstr b cs true true = b := by
      simp only [string_append_cstr]
      rw [if_pos hemp]
    rw [hnoop]
    exact ⟨hg, c, hc, hzf⟩
  · have hget : genVec_get b (b.size - 1) = some 0 := by
      rw [genVec_get, if_neg (by omega)]
      rw [getD_bufList_live b _ (by omega), hc]
      rw [List.getD_append_right _ _ _ _ (by omega)]
      simp [hsz]
    have happ : string_append_cstr b cs true true
        = ensure_null_terminated
            (genVec_insert_multi { b with size := b.size - 1 } (b.size - 1)
              (cstrView cs) true) true := by
      simp only [string_append_cstr]
      rw [if_neg hemp]
      rw [if_pos (by omega), hget]
      dsimp only
      rw [if_pos rfl]
    have hgood1 : Good { b with size := b.size - 1 } :=
      ⟨hg.1, hg.2.1, by simp; have := hg.2.2; omega⟩
    have hlive1 : liveBytes { b with size := b.size - 1 } = c := by
      simp only [liveBytes, bufList]
      rw [show List.take (b.size - 1) (({ b with size := b.size - 1 } : GenVec).data.getD [])
          = (liveBytes b).take (b.size - 1) from by
        simp only [liveBytes, bufList, List.take_take]
        congr 1
        omega]
      rw [hc, hsz]
      rw [List.take_append_of_le_length (by simp)]
      simp
    obtain ⟨hg2, hsz2, hlv2, hcap2⟩ :=
      insert_multi_spec { b with size := b.size - 1 } (b.size - 1) (cstrView cs)
        hgood1 (by simp) (by intro hq; rw [hq] at hemp; simp at hemp)
    have hlv2' : liveBytes (genVec_insert_multi { b with size := b.size - 1 } (b.size - 1)
        (cstrView cs) true) = c ++ cstrView cs := by
      rw [hlv2, hlive1]
      have h1 : c.take (b.size - 1) = c := List.take_of_length_le (by omega)
      have h2 : c.drop (b.size - 1) = [] := List.drop_eq_nil_of_le (by omega)
      rw [show (({ b with size := b.size - 1 } : GenVec)).size = b.size - 1 from rfl] at *
      rw [h1, h2, List.append_nil]
    rw [happ]
    have hzf2 : (0 : Nat) ∉ c ++ cstrView cs := by
      intro hq
      rcases List.mem_append.mp hq with hq1 | hq2
      · exact hzf hq1
      · exact zero_not_mem_cstrView cs hq2
    have := ensure_wf_of_zero_free _ hg2 (by rw [hlv2']; exact hzf2)
    exact this.1

lemma from_cstr_wf (cs : List Nat) : StrWF (string_from_cstr cs true true true) :=
  append_cstr_wf (string_create true) cs string_create_wf

lemma append_string_wf (b other : GenVec) (h : StrWF b) :
    StrWF (string_append_string b other true true) :=
  append_cstr_wf b (toCStr other) h

lemma append_char_wf (b : GenVec) (ch : Nat) (h : StrWF b) :
    StrWF (string_append_char b ch true true true) := by
  obtain ⟨hg, c, hc, hzf⟩ := h
  have hlen : (liveBytes b).length = b.size := liveBytes_length b hg
  have hsz : b.size = c.length + 1 := by rw [hc] at hlen; simp at hlen; omega
  obtain ⟨hret, hg1, hsz1, hlv1, hcap1⟩ := pop_spec b true hg (by omega)
  have hlv1' : liveBytes (genVec_pop b true).2 = c := by
    rw [hlv1, hc, hsz]
    rw [List.take_append_of_le_length (by simp)]
    simp
  obtain ⟨hg2, hsz2, hlv2, hcap2⟩ := push_good (genVec_pop b true).2 ch hg1
  have hlv2' : liveBytes (genVec_push (genVec_pop b true).2 ch true) = c ++ [ch] := by
    rw [hlv2, hlv1']
  have happ : string_append_char b ch true true true
      = ensure_null_terminated (genVec_push (genVec_pop b true).2 ch true) true := by
    simp only [string_append_char]
    rw [if_pos (by omega)]
  rw [happ]
  by_cases hch : ch = 0
  · rw [ensure_of_terminated _ c hg2 (by rw [hlv2', hch])]
    exact ⟨hg2, c, by rw [hlv2', hch], hzf⟩
  · have hzf2 : (0 : Nat) ∉ c ++ [ch] := by
      intro hq
      rcases List.mem_append.mp hq with hq1 | hq2
      · exact hzf hq1
      · simp at hq2; exact hch hq2.symm
    exact (ensure_wf_of_zero_free _ hg2 (by rw [hlv2']; exact hzf2)).1

lemma take_toCStr (o : GenVec) : (bufList o).take (toCStr o).length = toCStr o := by
  by_cases h : o.size = 0
  · simp [toCStr, h]
  · simp only [toCStr, if_neg h]
    exact take_cstrView_length (bufList o)

lemma zero_not_mem_toCStr (o : GenVec) : 0 ∉ toCStr o := by
  by_cases h : o.size = 0
  · simp [toCStr, h]
  · simp only [toCStr, if_neg h]
    exact zero_not_mem_cstrView (bufList o)

lemma insert_block_wf (b : GenVec) (i : Nat) (xs : List Nat) (hg : Good b)
    (c : List Nat) (hc : liveBytes b = c ++ [0]) (hzf : 0 ∉ c)
    (hi : i ≤ c.length) (hxs : 0 ∉ xs) :
    StrWF (ensure_null_terminated (genVec_insert_multi b i xs true) true) := by
  have hlen : (liveBytes b).length = b.size := liveBytes_length b hg
  have hsz : b.size = c.length + 1 := by rw [hc] at hlen; simp at hlen; omega
  by_cases hemp : xs = []
  · have : genVec_insert_multi b i xs true = b := by
      simp only [genVec_insert_multi]
      rw [if_pos (by simp [hemp])]
    rw [this, ensure_of_terminated b c hg hc]
    exact ⟨hg, c, hc, hzf⟩
  · obtain ⟨hg2, hsz2, hlv2, hcap2⟩ := insert_multi_spec b i xs hg (by omega) hemp
    have htk : (liveBytes b).take i = c.take i := by
      rw [hc, List.take_append_of_le_length (by omega)]
    have hdr : (liveBytes b).drop i = c.drop i ++ [0] := by
      rw [hc, List.drop_append_of_le_length (by omega)]
    have hlv2' : liveBytes (genVec_insert_multi b i xs true)
        = (c.take i ++ xs ++ c.drop i) ++ [0] := by
      rw [hlv2, htk, hdr, ← List.append_assoc]
    have hzf2 : (0 : Nat) ∉ c.take i ++ xs ++ c.drop i := by
      intro hq
      rcases List.mem_append.mp hq with hq1 | hq2
      · rcases List.mem_append.mp hq1 with hq3 | hq4
        · exact hzf (List.mem_of_mem_take hq3)
        · exact hxs hq4
      · exact hzf (List.mem_of_mem_drop hq2)
    rw [ensure_of_terminated _ _ hg2 hlv2']
    exact ⟨hg2, _, hlv2', hzf2⟩

lemma insert_one_wf (b : GenVec) (i ch : Nat) (hg : Good b)
    (c : List Nat) (hc : liveBytes b = c ++ [0]) (hzf : 0 ∉ c)
    (hi : i ≤ c.length) (hch : ch ≠ 0) :
    StrWF (ensure_null_terminated (genVec_insert b i ch true) true) := by
  have hlen : (liveBytes b).length = b.size := liveBytes_length b hg
  have hsz : b.size = c.length + 1 := by rw [hc] at hlen; simp at hlen; omega
  obtain ⟨hg2, hsz2, hlv2, hcap2⟩ := insert_spec b i ch hg (by omega)
  have htk : (liveBytes b).take i = c.take i := by
    rw [hc, List.take_append_of_le_length (by omega)]
  have hdr : (liveBytes b).drop i = c.drop i ++ [0] := by
    rw [hc, List.drop_append_of_le_length (by omega)]
  have hlv2' : liveBytes (genVec_insert b i ch true)
      = (c.take i ++ [ch] ++ c.drop i) ++ [0] := by
    rw [hlv2, htk, hdr, ← List.append_assoc]
  have hzf2 : (0 : Nat) ∉ c.take i ++ [ch] ++ c.drop i := by
    intro hq
    rcases List.mem_append.mp hq with hq1 | hq2
    · rcases List.mem_append.mp hq1 with hq3 | hq4
      · exact hzf (List.mem_of_mem_take hq3)
      · simp at hq4; exact hch hq4.symm
    · exact hzf (List.mem_of_mem_drop hq2)
  rw [ensure_of_terminated _ _ hg2 hlv2']
  exact ⟨hg2, _, hlv2', hzf2⟩

lemma strlen_of_wf (b : GenVec) (c : List Nat) (hg : Good b)
    (hc : liveBytes b = c ++ [0]) : string_len b = c.length := by
  have hlen : (liveBytes b).length = b.size := liveBytes_length b hg
  have hsz : b.size = c.length + 1 := by rw [hc] at hlen; simp at hlen; omega
  simp only [string_len]
  rw [if_pos (by omega)]
  omega

lemma insert_char_wf (b : GenVec) (i ch : Nat) (h : StrWF b) (hch : ch ≠ 0) :
    StrWF (string_insert_char b i ch true true true true true) := by
  obtain ⟨hg, c, hc, hzf⟩ := h
  simp only [string_insert_char]
  by_cases hcase : string_len b ≤ i
  · rw [if_pos hcase]
    exact append_char_wf b ch ⟨hg, c, hc, hzf⟩
  · rw [if_neg hcase]
    have hlt : i < c.length := by
      rw [strlen_of_wf b c hg hc] at hcase
      omega
    exact insert_one_wf b i ch hg c hc hzf (by omega) hch

lemma insert_cstr_wf (b : GenVec) (i : Nat) (cs : List Nat) (h : StrWF b) :
    StrWF (string_insert_cstr b i cs true true true true) := by
  obtain ⟨hg, c, hc, hzf⟩ := h
  simp only [string_insert_cstr]
  by_cases hcase : string_len b ≤ i
  · rw [if_pos hcase]
    exact append_cstr_wf b cs ⟨hg, c, hc, hzf⟩
  · rw [if_neg hcase]
    have hlt : i < c.length := by
      rw [strlen_of_wf b c hg hc] at hcase
      omega
    exact insert_block_wf b i (cstrView cs) hg c hc hzf (by omega)
      (zero_not_mem_cstrView cs)

lemma insert_string_wf (b : GenVec) (i : Nat) (other : GenVec) (h : StrWF b) :
    StrWF (string_insert_string b i other true true true true) := by
  obtain ⟨hg, c, hc, hzf⟩ := h
  simp only [string_insert_string]
  by_cases hcase : string_len b ≤ i
  · rw [if_pos hcase]
    exact append_string_wf b other ⟨hg, c, hc, hzf⟩
  · rw [if_neg hcase]
    have hlt : i < c.length := by
      rw [strlen_of_wf b c hg hc] at hcase
      omega
    rw [take_toCStr other]
    exact insert_block_wf b i (toCStr other) hg c hc hzf (by omega)
      (zero_not_mem_toCStr other)

lemma remove_char_wf (b : GenVec) (i : Nat) (h : StrWF b) :
    StrWF (string_remove_char b i true true) := by
  obtain ⟨hg, c, hc, hzf⟩ := h
  have hlen : (liveBytes b).length = b.size := liveBytes_length b hg
  have hsz : b.size = c.length + 1 := by rw [hc] at hlen; simp at hlen; omega
  simp only [string_remove_char]
  by_cases hcase : string_len b ≤ i
  · rw [if_pos hcase]
    exact ⟨hg, c, hc, hzf⟩
  · rw [if_neg hcase]
    have hlt : i < c.length := by
      rw [strlen_of_wf b c hg hc] at hcase
      omega
    obtain ⟨hg2, hsz2, hlv2, hcap2⟩ := remove_spec b i true hg (by omega)
    have htk : (liveBytes b).take i = c.take i := by
      rw [hc, List.take_append_of_le_length (by omega)]
    have hdr : (liveBytes b).drop (i + 1) = c.drop (i + 1) ++ [0] := by
      rw [hc, List.drop_append_of_le_length (by omega)]
    have hlv2' : liveBytes (genVec_remove b i true)
        = (c.take i ++ c.drop (i + 1)) ++ [0] := by
      rw [hlv2, htk, hdr, ← List.append_assoc]
    have hzf2 : (0 : Nat) ∉ c.take i ++ c.drop (i + 1) := by
      intro hq
      rcases List.mem_append.mp hq with hq1 | hq2
      · exact hzf (List.mem_of_mem_take hq1)
      · exact hzf (List.mem_of_mem_drop hq2)
    rw [ensure_of_terminated _ _ hg2 hlv2']
    exact ⟨hg2, _, hlv2', hzf2⟩

lemma set_char_wf (b : GenVec) (i ch : Nat) (h : StrWF b) (hch : ch ≠ 0) :
    StrWF (string_set_char b i ch) := by
  obtain ⟨hg, c, hc, hzf⟩ := h
  have hlen : (liveBytes b).length = b.size := liveBytes_length b hg
  have hsz : b.size = c.length + 1 := by rw [hc] at hlen; simp at hlen; omega
  simp only [string_set_char]
  by_cases hcase : string_len b ≤ i
  · rw [if_pos hcase]
    exact ⟨hg, c, hc, hzf⟩
  · rw [if_neg hcase]
    have hlt : i < c.length := by
      rw [strlen_of_wf b c hg hc] at hcase
      omega
    obtain ⟨hg2, hsz2, hcap2, hlv2⟩ := replace_spec b i ch hg (by omega)
    have htk : (liveBytes b).take i = c.take i := by
      rw [hc, List.take_append_of_le_length (by omega)]
    have hdr : (liveBytes b).drop (i + 1) = c.drop (i + 1) ++ [0] := by
      rw [hc, List.drop_append_of_le_length (by omega)]
    have hlv2' : liveBytes (genVec_replace b i ch)
        = (c.take i ++ [ch] ++ c.drop (i + 1)) ++ [0] := by
      rw [hlv2, htk, hdr, ← List.append_assoc]
    have hzf2 : (0 : Nat) ∉ c.take i ++ [ch] ++ c.drop (i + 1) := by
      intro hq
      rcases List.mem_append.mp hq with hq1 | hq2
      · rcases List.mem_append.mp hq1 with hq3 | hq4
        · exact hzf (List.mem_of_mem_take hq3)
        · simp at hq4; exact hch hq4.symm
      · exact hzf (List.mem_of_mem_drop hq2)
    exact ⟨hg2, _, hlv2', hzf2⟩

lemma clear_wf (b : GenVec) : StrWF (string_clear b true) := by
  have heq : string_clear b true =
      { data := some [0], size := 1, capacity := 1, dataSize := b.dataSize,
        delFn := b.delFn } := rfl
  rw [heq]
  exact ⟨⟨rfl, rfl, Nat.le_refl 1⟩, [], rfl, by simp⟩

lemma substr_wf (b : GenVec) (s ln : Nat) (h : StrWF b) :
    StrWF ((string_substr b s ln true true true).getD b) := by
  obtain ⟨hg, c, hc, hzf⟩ := h
  have hlen : (liveBytes b).length = b.size := liveBytes_length b hg
  have hsz : b.size = c.length + 1 := by rw [hc] at hlen; simp at hlen; omega
  have hslen : string_len b = c.length := strlen_of_wf b c hg hc
  by_cases hcase : string_len b ≤ s
  · have hnone : string_substr b s ln true true true = none := by
      simp only [string_substr]
      rw [if_pos hcase]
    rw [hnone]
    exact ⟨hg, c, hc, hzf⟩
  · have hlt : s < c.length := by omega
    have hclen : (bufList b).take c.length = c := by
      have h1 : (bufList b).take c.length = (liveBytes b).take c.length := by
        simp only [liveBytes, List.take_take]
        congr 1
        omega
      rw [h1, hc, List.take_append_of_le_length (by omega),
        List.take_of_length_le (by omega)]
    by_cases hact : 0 < min (s + ln) (string_len b) - s
    · have hsome : string_substr b s ln true true true
          = some (ensure_null_terminated
              (genVec_insert_multi
                { data := some [0], size := 0, capacity := 1, dataSize := 1, delFn := false }
                0 (((bufList b).drop s).take (min (s + ln) (string_len b) - s)) true)
              true) := by
        simp only [string_substr, string_create_eq]
        rw [if_neg hcase, if_pos hact]
        rw [if_pos (by norm_num)]
      have hbytes : ((bufList b).drop s).take (min (s + ln) (string_len b) - s)
          = (c.drop s).take (min (s + ln) (string_len b) - s) := by
        rw [← List.drop_take, ← List.drop_take]
        have h2 : (bufList b).take (min (s + ln) (string_len b))
            = c.take (min (s + ln) (string_len b)) := by
          rw [← hclen, List.take_take]
          congr 1
          omega
        rw [h2]
      have hbne : ((bufList b).drop s).take (min (s + ln) (string_len b) - s) ≠ [] := by
        rw [hbytes]
        intro hq
        have := congrArg List.length hq
        simp only [List.length_take, List.length_drop, List.length_nil] at this
        omega
      have hzfb : (0 : Nat) ∉ ((bufList b).drop s).take (min (s + ln) (string_len b) - s) := by
        rw [hbytes]
        intro hq
        exact hzf (List.mem_of_mem_drop (List.mem_of_mem_take hq))
      have hgR : Good { data := some [0], size := 0, capacity := 1, dataSize := 1, delFn := false } :=
        ⟨rfl, rfl, Nat.zero_le _⟩
      obtain ⟨hg2, hsz2, hlv2, hcap2⟩ :=
        insert_multi_spec _ 0 _ hgR (by omega) hbne
      have hlv2' : liveBytes (genVec_insert_multi
          { data := some [0], size := 0, capacity := 1, dataSize := 1, delFn := false }
          0 (((bufList b).drop s).take (min (s + ln) (string_len b) - s)) true)
          = ((bufList b).drop s).take (min (s + ln) (string_len b) - s) := by
        rw [hlv2]
        simp [liveBytes, bufList]
      rw [hsome]
      simp only [Option.getD_some]
      exact (ensure_wf_of_zero_free _ hg2 (by rw [hlv2']; exact hzfb)).1
    · have hsome : string_substr b s ln true true true = some (string_create true) := by
        simp only [string_substr]
        rw [if_neg hcase, if_neg hact]
      rw [hsome]
      simp only [Option.getD_some]
      exact string_create_wf

lemma cstrView_eq_self (l : List Nat) (h : 0 ∉ l) : cstrView l = l := by
  apply List.takeWhile_eq_self_iff.mpr
  intro x hx
  simp only [bne_iff_ne, ne_eq]
  intro hq
  rw [hq] at hx
  exact h hx

lemma strstrIdx_none (hay needle : List Nat) (h : strstrIdx hay needle = none) :
    ∀ j, ¬ needle <+: hay.drop j := by
  induction hay with
  | nil =>
    rw [strstrIdx] at h
    intro j hpre
    by_cases hp : needle.isPrefixOf ([] : List Nat)
    · rw [if_pos hp] at h
      exact Option.noConfusion h
    · rw [List.drop_nil] at hpre
      exact hp (List.isPrefixOf_iff_prefix.mpr hpre)
  | cons a t ih =>
    rw [strstrIdx] at h
    by_cases hp : needle.isPrefixOf (a :: t)
    · rw [if_pos hp] at h
      exact Option.noConfusion h
    · rw [if_neg hp] at h
      have ht := ih (Option.map_eq_none'.mp h)
      intro j
      cases j with
      | zero =>
        intro hpre
        exact hp (List.isPrefixOf_iff_prefix.mpr hpre)
      | succ j' =>
        rw [List.drop_succ_cons]
        exact ht j'

lemma strstrIdx_some (hay needle : List Nat) (i : Nat)
    (h : strstrIdx hay needle = some i) :
    needle <+: hay.drop i ∧ ∀ j, j < i → ¬ needle <+: hay.drop j := by
  induction hay generalizing i with
  | nil =>
    rw [strstrIdx] at h
    by_cases hp : needle.isPrefixOf ([] : List Nat)
    · rw [if_pos hp] at h
      obtain rfl : (0 : Nat) = i := Option.some.inj h
      exact ⟨List.isPrefixOf_iff_prefix.mp hp, by omega⟩
    · rw [if_neg hp] at h
      exact Option.noConfusion h
  | cons a t ih =>
    rw [strstrIdx] at h
    by_cases hp : needle.isPrefixOf (a :: t)
    · rw [if_pos hp] at h
      obtain rfl : (0 : Nat) = i := Option.some.inj h
      exact ⟨List.isPrefixOf_iff_prefix.mp hp, by omega⟩
    · rw [if_neg hp] at h
      obtain ⟨i', hi', rfl⟩ := Option.map_eq_some'.mp h
      obtain ⟨hpre, hmin⟩ := ih i' hi'
      refine ⟨by rw [List.drop_succ_cons]; exact hpre, ?_⟩
      intro j hj
      cases j with
      | zero =>
        intro hpre0
        exact hp (List.isPrefixOf_iff_prefix.mpr hpre0)
      | succ j' =>
        rw [List.drop_succ_cons]
        exact hmin j' (by omega)

lemma strchrIdx_mem (hay : List Nat) (ch : Nat) (h : ch ∈ hay) :
    ∃ i, strchrIdx hay ch = some i ∧ hay.getD i 0 = ch ∧
      ∀ j, j < i → hay.getD j 0 ≠ ch := by
  induction hay with
  | nil => simp at h
  | cons a t ih =>
    by_cases ha : a = ch
    · refine ⟨0, ?_, by simpa using ha, by omega⟩
      rw [strchrIdx, if_pos ha]
    · have hmem : ch ∈ t := by
        rcases List.mem_cons.mp h with h1 | h2
        · exact absurd h1.symm ha
        · exact h2
      obtain ⟨i, hsome, hval, hmin⟩ := ih hmem
      refine ⟨i + 1, ?_, by simpa using hval, ?_⟩
      · rw [strchrIdx, if_neg ha, hsome]
        rfl
      · intro j hj
        cases j with
        | zero => simpa using ha
        | succ j' =>
          rw [List.getD_cons_succ]
          exact hmin j' (by omega)

lemma strcmp_lex (xs ys : List Nat) (hx : 0 ∉ xs) (hy : 0 ∉ ys) :
    (strcmpList xs ys < 0 ↔ lexCompare xs ys = -1) ∧
    (strcmpList xs ys = 0 ↔ lexCompare xs ys = 0) ∧
    (0 < strcmpList xs ys ↔ lexCompare xs ys = 1) := by
  induction xs generalizing ys with
  | nil =>
    cases ys with
    | nil => simp [strcmpList, lexCompare]
    | cons b bs =>
      have hb' : 0 < b := Nat.pos_of_ne_zero (by intro hq; exact hy (by simp [hq]))
      simp only [strcmpList, lexCompare]
      refine ⟨?_, ?_, ?_⟩ <;> constructor <;> intro h <;> first | trivial | omega
  | cons a as ih =>
    cases ys with
    | nil =>
      have ha' : 0 < a := Nat.pos_of_ne_zero (by intro hq; exact hx (by simp [hq]))
      simp only [strcmpList, lexCompare]
      refine ⟨?_, ?_, ?_⟩ <;> constructor <;> intro h <;> first | trivial | omega
    | cons b bs =>
      have hxs : 0 ∉ as := by intro hq; exact hx (by simp [hq])
      have hys : 0 ∉ bs := by intro hq; exact hy (by simp [hq])
      by_cases hab : a = b
      · subst hab
        have hrec := ih bs hxs hys
        simp only [strcmpList, lexCompare, if_pos rfl, if_neg (lt_irrefl a)]
        exact hrec
      · simp only [strcmpList, lexCompare, if_neg hab]
        by_cases hlt : a < b
        · rw [if_pos hlt]
          refine ⟨?_, ?_, ?_⟩ <;> constructor <;> intro h <;> first | trivial | omega
        · have hgt : b < a := by omega
          rw [if_neg hlt, if_pos hgt]
          refine ⟨?_, ?_, ?_⟩ <;> constructor <;> intro h <;> first | trivial | omega

/-!
The public String operations of `String.h` as a single operation type, for
stating the terminator invariant across every operation (all allocations
succeeding).
-/

/-- One public mutating/producing String operation, with its arguments. -/
inductive StrOp where
  | create : StrOp
  | fromBytes (cs : List Nat) : StrOp
  | appendBytes (cs : List Nat) : StrOp
  | appendStr (other : GenVec) : StrOp
  | appendByte (ch : Nat) : StrOp
  | insertByte (i ch : Nat) : StrOp
  | insertBytes (i : Nat) (cs : List Nat) : StrOp
  | insertStr (i : Nat) (other : GenVec) : StrOp
  | removeByte (i : Nat) : StrOp
  | setByte (i ch : Nat) : StrOp
  | clearStr : StrOp
  | substrOp (start length : Nat) : StrOp

/-- Run one String operation on a buffer (every allocation succeeding).
`create`/`fromBytes` produce a fresh string; `substrOp` yields the new
substring when the call succeeds, else the untouched input. -/
def applyStrOp (op : StrOp) (b : GenVec) : GenVec :=
  match op with
  | .create => string_create true
  | .fromBytes cs => string_from_cstr cs true true true
  | .appendBytes cs => string_append_cstr b cs true true
  | .appendStr o => string_append_string b o true true
  | .appendByte ch => string_append_char b ch true true true
  | .insertByte i ch => string_insert_char b i ch true true true true true
  | .insertBytes i cs => string_insert_cstr b i cs true true true true
  | .insertStr i o => string_insert_string b i o true true true true
  | .removeByte i => string_remove_char b i true true
  | .setByte i ch => string_set_char b i ch
  | .clearStr => string_clear b true
  | .substrOp s ln => (string_substr b s ln true true true).getD b

/-- Argument restriction of the amended claim: the single-byte operations
`insertByte`/`setByte` are not handed the zero byte (C-string arguments are
zero-free by construction, so they need no restriction). -/
def OpArgsOk (op : StrOp) : Prop :=
  match op with
  | .insertByte _ ch => ch ≠ 0
  | .setByte _ ch => ch ≠ 0
  | _ => True

/-- C3 (amended): for every well-formed string buffer (zero-free content
followed by the zero terminator) and every public String operation whose
byte arguments do not explicitly carry a zero byte (the original claim
exempted only `setByte`, but `insertByte` with a zero byte also plants an
embedded zero — see the counterexample), the operation returns a buffer
whose last stored byte is the zero terminator and whose content below
`length(str)` is free of zero bytes. -/
theorem c3_string_invariant_amended (op : StrOp) (b : GenVec)
    (hb : StrWF b) (hop : OpArgsOk op) : StrWF (applyStrOp op b) := by
  cases op with
  | create => exact string_create_wf
  | fromBytes cs => exact from_cstr_wf cs
  | appendBytes cs => exact append_cstr_wf b cs hb
  | appendStr o => exact append_string_wf b o hb
  | appendByte ch => exact append_char_wf b ch hb
  | insertByte i ch => exact insert_char_wf b i ch hb hop
  | insertBytes i cs => exact insert_cstr_wf b i cs hb
  | insertStr i o => exact insert_string_wf b i o hb
  | removeByte i => exact remove_char_wf b i hb
  | setByte i ch => exact set_char_wf b i ch hb hop
  | clearStr => exact clear_wf b
  | substrOp s ln => exact substr_wf b s ln hb

/-- C3 witness: the invariant theorem applied to the buffer of `"ab"` and
`insertByte 1 'c'`. -/
theorem c3_string_invariant_witness :
    StrWF { data := some [97, 98, 0], size := 3, capacity := 3, dataSize := 1,
            delFn := false } ∧
    StrWF (applyStrOp (StrOp.insertByte 1 99)
      { data := some [97, 98, 0], size := 3, capacity := 3, dataSize := 1,
        delFn := false }) := by
  have hwf : StrWF { data := some [97, 98, 0], size := 3, capacity := 3, dataSize := 1, delFn := false } :=
    ⟨⟨rfl, rfl, by decide⟩, [97, 98], rfl, by decide⟩
  exact ⟨hwf, c3_string_invariant_amended (StrOp.insertByte 1 99) _ hwf (show (99 : Nat) ≠ 0 by decide)⟩

/-- C3 counterexample: `insertByte(str, 0, 0)` on the string `"ab"` puts a
zero byte at position 0, before `length(str) = 3`, without any `setByte`
call — the claim as stated forbids this. -/
theorem c3_insertByte_zero_counterexample :
    contentOf (string_insert_char (string_from_cstr [97, 98] true true true)
      0 0 true true true true true) = [0, 97, 98] ∧
    string_len (string_insert_char (string_from_cstr [97, 98] true true true)
      0 0 true true true true true) = 3 ∧
    (0 : Nat) < 3 := by decide

/-- C1: the claim says a push whose growth reallocation fails leaves the
vector unchanged.  The code only checks `!vec->data` after the failed grow,
so on a full vector with a live buffer it still writes the element one past
the allocated region and increments `size`: starting from `size = capacity
= 2`, the failed-growth push ends with `size = 3` while `capacity` stays
`2` — the push did have an effect, contradicting the claim (and the
declared intent of the `data allocation failed` bail-out). -/
theorem c1_push_failed_grow_mutates :
    (genVec_push { data := some [10, 20], size := 2, capacity := 2, dataSize := 1, delFn := false }
      30 false).size = 3 ∧
    (genVec_push { data := some [10, 20], size := 2, capacity := 2, dataSize := 1, delFn := false }
      30 false).capacity = 2 ∧
    (genVec_push { data := some [10, 20], size := 2, capacity := 2, dataSize := 1, delFn := false }
      30 false).size
      ≠ ({ data := some [10, 20], size := 2, capacity := 2, dataSize := 1, delFn := false } : GenVec).size := by
  decide

/-- C2: the claim says `capacity >= size` holds after every public
operation, including when a reallocation inside the operation fails.
`genVec_insert_multi` bumps `size` before the reserve and detects a failed
reserve only through `!vec->data`; a failed `realloc` leaves the old
non-NULL buffer, so the function keeps the bumped size (and writes out of
bounds): inserting 3 elements into a full 2-element vector with the
reallocation failing returns with `size = 5 > capacity = 2`. -/
theorem c2_insertMany_failed_reserve_oversizes :
    (genVec_insert_multi { data := some [10, 20], size := 2, capacity := 2, dataSize := 1, delFn := false }
      0 [1, 2, 3] false).size = 5 ∧
    (genVec_insert_multi { data := some [10, 20], size := 2, capacity := 2, dataSize := 1, delFn := false }
      0 [1, 2, 3] false).capacity = 2 ∧
    ¬ ((genVec_insert_multi { data := some [10, 20], size := 2, capacity := 2, dataSize := 1, delFn := false }
      0 [1, 2, 3] false).size
        ≤ (genVec_insert_multi { data := some [10, 20], size := 2, capacity := 2, dataSize := 1, delFn := false }
            0 [1, 2, 3] false).capacity) := by
  decide

/-- C4 counterexample: `createWithValue(0, value, 1)` with a present value
does not return the failure sentinel (NULL) — after printing a diagnostic
it returns the empty vector built by `genVec_init`. -/
theorem c4_init_val_zero_counterexample :
    genVec_init_val 0 (some 7) 1 true true false ≠ none ∧
    genVec_init_val 0 (some 7) 1 true true false
      = some { data := none, size := 0, capacity := 0, dataSize := 1, delFn := false } := by
  decide

/-- C4 (amended): `createWithValue` fails (returns NULL) whenever the value
is absent; with a present value and `n = 0` it returns an empty instance
(`size = capacity = 0`), diagnostic only; and for every `n > 0` with a
present value (nonzero element size, allocations succeeding) it returns an
instance with `size = capacity = n` whose `n` elements are copies of the
value. -/
theorem c4_init_val_amended (n val ds : Nat) (hds : ds ≠ 0) :
    genVec_init_val n none ds true true false = none ∧
    (n = 0 → genVec_init_val n (some val) ds true true false
        = some { data := none, size := 0, capacity := 0, dataSize := ds, delFn := false }) ∧
    (0 < n → ∃ w, genVec_init_val n (some val) ds true true false = some w ∧
        w.size = n ∧ w.capacity = n ∧ liveBytes w = List.replicate n val) := by
  have hinit : genVec_init n ds true true false
      = some { data := if 0 < n then some (List.replicate n 0) else none,
               size := 0, capacity := n, dataSize := ds, delFn := false } := by
    simp [genVec_init, hds]
  refine ⟨rfl, ?_, ?_⟩
  · intro hn
    subst hn
    simp [genVec_init_val, hinit]
  · intro hn
    refine ⟨{ data := some (List.replicate n val), size := n, capacity := n, dataSize := ds, delFn := false },
      ?_, rfl, rfl, ?_⟩
    · simp only [genVec_init_val, hinit]
      rw [if_neg (by omega)]
    · simp [liveBytes, bufList, List.take_replicate]

/-- C4 witness: the amended theorem at `n = 3`, `val = 7`, element size 1. -/
theorem c4_init_val_witness :
    genVec_init_val 3 none 1 true true false = none ∧
    (∃ w, genVec_init_val 3 (some 7) 1 true true false = some w ∧
      w.size = 3 ∧ w.capacity = 3 ∧ liveBytes w = List.replicate 3 7) := by
  have h := c4_init_val_amended 3 7 1 (by decide)
  exact ⟨h.1, h.2.2 (by decide)⟩

lemma strstr_nil (hay : List Nat) : strstrIdx hay [] = some 0 := by
  rw [strstrIdx.eq_def]
  simp [List.isPrefixOf]

/-- C5 counterexample: `findBytes` with an empty needle returns `0`, not
the "not found" sentinel `-1`: `strstr` with an empty needle returns the
haystack itself, and the code adds no empty-needle check. -/
theorem c5_empty_needle_counterexample :
    string_find_cstr (string_from_cstr [97, 98, 99] true true true) (some []) = 0 ∧
    string_find_cstr (string_from_cstr [97, 98, 99] true true true) (some []) ≠ -1 := by
  decide

/-- C5 (amended): an absent (NULL) needle is "not found" (`-1`); an empty
needle reports a match at index `0` (not `-1` as claimed — `strstr`
semantics); for a well-formed string (zero-free content `c` with trailing
terminator), a non-empty zero-free needle occurring in the content is found
at the index of its first occurrence, and likewise `findByte` for a nonzero
byte occurring in the content. -/
theorem c5_find_amended (b : GenVec) (c needle : List Nat) (ch : Nat)
    (hg : Good b) (hc : liveBytes b = c ++ [0]) (hzf : 0 ∉ c) :
    string_find_cstr b none = -1 ∧
    string_find_cstr b (some []) = 0 ∧
    (needle ≠ [] → 0 ∉ needle → (∃ k, needle <+: c.drop k) →
      ∃ i : Nat, string_find_cstr b (some needle) = (i : Int) ∧ needle <+: c.drop i ∧
        ∀ j, j < i → ¬ needle <+: c.drop j) ∧
    (ch ≠ 0 → ch ∈ c →
      ∃ i : Nat, string_find_char b ch = (i : Int) ∧ c.getD i 0 = ch ∧
        ∀ j, j < i → c.getD j 0 ≠ ch) := by
  have hto : toCStr b = c := toCStr_of_wf b c hg hc hzf
  refine ⟨rfl, ?_, ?_, ?_⟩
  · simp only [string_find_cstr, cstrView, List.takeWhile_nil, strstr_nil]
    simp
  · intro hne hzfn hocc
    have hview : cstrView needle = needle := cstrView_eq_self needle hzfn
    simp only [string_find_cstr, hview, hto]
    cases heq : strstrIdx c needle with
    | none =>
      obtain ⟨k, hk⟩ := hocc
      exact absurd hk (strstrIdx_none c needle heq k)
    | some i =>
      obtain ⟨hpre, hmin⟩ := strstrIdx_some c needle i heq
      exact ⟨i, rfl, hpre, hmin⟩
  · intro hch hmem
    obtain ⟨i, hsome, hval, hmin⟩ := strchrIdx_mem c ch hmem
    simp only [string_find_char, hto, hsome]
    exact ⟨i, rfl, hval, hmin⟩

/-- C5 witness: the amended theorem on the buffer of `"abc"`, with needle
`"bc"` and byte `'b'`. -/
theorem c5_find_witness :
    (∃ i : Nat, string_find_cstr
        { data := some [97, 98, 99, 0], size := 4, capacity := 4, dataSize := 1, delFn := false }
        (some [98, 99]) = (i : Int) ∧ [98, 99] <+: [97, 98, 99].drop i ∧
        ∀ j, j < i → ¬ [98, 99] <+: [97, 98, 99].drop j) ∧
    (∃ i : Nat, string_find_char
        { data := some [97, 98, 99, 0], size := 4, capacity := 4, dataSize := 1, delFn := false }
        98 = (i : Int) ∧ [97, 98, 99].getD i 0 = 98 ∧
        ∀ j, j < i → [97, 98, 99].getD j 0 ≠ 98) := by
  have h := c5_find_amended
    { data := some [97, 98, 99, 0], size := 4, capacity := 4, dataSize := 1, delFn := false }
    [97, 98, 99] [98, 99] 98 ⟨rfl, rfl, by decide⟩ rfl (by decide)
  exact ⟨h.2.2.1 (by decide) (by decide) ⟨1, by decide⟩, h.2.2.2 (by decide) (by decide)⟩

/-- C6 counterexample: with an embedded zero written via `setByte`,
`compare` stops at the zero and reports equality with the empty string,
while the lexicographic ordering of the full logical contents (`[0, 98]`
versus `[]`) is strictly positive. -/
theorem c6_embedded_zero_counterexample :
    string_compare
        (string_set_char (string_from_cstr [120, 98] true true true) 0 0)
        (string_from_cstr [] true true true) = 0 ∧
    lexCompare
        (contentOf (string_set_char (string_from_cstr [120, 98] true true true) 0 0))
        (contentOf (string_from_cstr [] true true true)) = 1 := by
  decide

/-- C6 (amended): `compare` orders the terminated views (bytes up to the
first zero); for strings whose logical contents are free of embedded zero
bytes (every string not manipulated through `setByte 0`), its sign agrees
with the lexicographic byte-wise ordering of the full logical contents. -/
theorem c6_compare_amended (a b : GenVec) (ca cb : List Nat)
    (hga : Good a) (hca : liveBytes a = ca ++ [0]) (hzfa : 0 ∉ ca)
    (hgb : Good b) (hcb : liveBytes b = cb ++ [0]) (hzfb : 0 ∉ cb) :
    (string_compare a b < 0 ↔ lexCompare (contentOf a) (contentOf b) = -1) ∧
    (string_compare a b = 0 ↔ lexCompare (contentOf a) (contentOf b) = 0) ∧
    (0 < string_compare a b ↔ lexCompare (contentOf a) (contentOf b) = 1) := by
  rw [contentOf_of_wf a ca hga hca, contentOf_of_wf b cb hgb hcb]
  simp only [string_compare, toCStr_of_wf a ca hga hca hzfa, toCStr_of_wf b cb hgb hcb hzfb]
  exact strcmp_lex ca cb hzfa hzfb

/-- C6 witness: the amended theorem comparing `"ab"` and `"ac"`. -/
theorem c6_compare_witness :
    string_compare
        { data := some [97, 98, 0], size := 3, capacity := 3, dataSize := 1, delFn := false }
        { data := some [97, 99, 0], size := 3, capacity := 3, dataSize := 1, delFn := false } < 0 ∧
    lexCompare [97, 98] [97, 99] = -1 := by
  have h := c6_compare_amended
    { data := some [97, 98, 0], size := 3, capacity := 3, dataSize := 1, delFn := false }
    { data := some [97, 99, 0], size := 3, capacity := 3, dataSize := 1, delFn := false }
    [97, 98] [97, 99] ⟨rfl, rfl, by decide⟩ rfl (by decide) ⟨rfl, rfl, by decide⟩ rfl (by decide)
  refine ⟨?_, by decide⟩
  apply h.1.mpr
  have : contentOf { data := some [97, 98, 0], size := 3, capacity := 3, dataSize := 1, delFn := false }
      = [97, 98] := by decide
  rw [this] at h ⊢
  decide

/-- C7: after a `pop` or `remove` that leaves `size <= capacity * 0.25`
(integer `capacity / 4`), the operation attempts to shrink the capacity to
`capacity / 2`, skipping the shrink when that target is zero (the
target-below-live-count skip can never fire once the trigger held, stated
as the first conjunct); a failed shrink reallocation leaves capacity
unchanged; a successful shrink leaves every live element's bytes unchanged
and `capacity >= size` still holds. -/
theorem c7_shrink_policy (v : GenVec) (i : Nat) (allocOk : Bool)
    (hg : Good v) (hpos : 0 < v.size) (htrig : v.size - 1 ≤ v.capacity / 4)
    (hi : i < v.size) :
    ¬ v.capacity / 2 < v.size - 1 ∧
    ((genVec_pop v allocOk).2.size = v.size - 1 ∧
      (genVec_pop v allocOk).2.capacity =
        (if v.capacity / 2 = 0 ∨ allocOk = false then v.capacity else v.capacity / 2) ∧
      liveBytes (genVec_pop v allocOk).2 = (liveBytes v).take (v.size - 1) ∧
      (genVec_pop v allocOk).2.size ≤ (genVec_pop v allocOk).2.capacity) ∧
    ((genVec_remove v i allocOk).size = v.size - 1 ∧
      (genVec_remove v i allocOk).capacity =
        (if v.capacity / 2 = 0 ∨ allocOk = false then v.capacity else v.capacity / 2) ∧
      liveBytes (genVec_remove v i allocOk) =
        (liveBytes v).take i ++ (liveBytes v).drop (i + 1) ∧
      (genVec_remove v i allocOk).size ≤ (genVec_remove v i allocOk).capacity) := by
  have hnb : ¬ v.capacity / 2 < v.size - 1 := by omega
  have hcap_eq :
      (if v.capacity / 2 < v.size - 1 ∨ v.capacity / 2 = 0 ∨ allocOk = false
       then v.capacity else v.capacity / 2)
      = (if v.capacity / 2 = 0 ∨ allocOk = false then v.capacity else v.capacity / 2) := by
    by_cases hBC : v.capacity / 2 = 0 ∨ allocOk = false
    · rw [if_pos (Or.inr hBC), if_pos hBC]
    · rw [if_neg (by rintro (h | h); exact hnb h; exact hBC h), if_neg hBC]
  have hsc := hg.2.2
  obtain ⟨hr, hgp, hsp, hlp, hcp⟩ := pop_spec v allocOk hg hpos
  rw [if_pos htrig, hcap_eq] at hcp
  obtain ⟨hgr, hsr, hlr, hcr⟩ := remove_spec v i allocOk hg hi
  rw [if_pos htrig, hcap_eq] at hcr
  refine ⟨hnb, ⟨hsp, hcp, hlp, ?_⟩, ⟨hsr, hcr, hlr, ?_⟩⟩
  · rw [hsp, hcp]
    by_cases hBC : v.capacity / 2 = 0 ∨ allocOk = false
    · rw [if_pos hBC]; omega
    · rw [if_neg hBC]; omega
  · rw [hsr, hcr]
    by_cases hBC : v.capacity / 2 = 0 ∨ allocOk = false
    · rw [if_pos hBC]; omega
    · rw [if_neg hBC]; omega

/-- C7 witness: the policy theorem on a vector with `size = 1`,
`capacity = 4` (pop and remove both land on the shrink trigger and halve
the capacity to 2). -/
theorem c7_shrink_policy_witness :
    (genVec_pop { data := some [5, 6, 7, 8], size := 1, capacity := 4, dataSize := 1, delFn := false }
      true).2.capacity = 2 ∧
    (genVec_remove { data := some [5, 6, 7, 8], size := 1, capacity := 4, dataSize := 1, delFn := false }
      0 true).capacity = 2 := by
  have h := c7_shrink_policy
    { data := some [5, 6, 7, 8], size := 1, capacity := 4, dataSize := 1, delFn := false }
    0 true ⟨rfl, rfl, by decide⟩ (by decide) (by decide) (by decide)
  constructor
  · rw [h.2.1.2.1]
    decide
  · rw [h.2.2.2.1]
    decide

/-- C8: when a push with `size = capacity` (or an interior insert in the
same state) grows the storage and the growth allocation succeeds, the new
capacity is `capacity + 1` when the old capacity is below 4 and
`floor(capacity * 1.5)` (that is, `3 * capacity / 2`) otherwise. -/
theorem c8_growth_policy (v : GenVec) (x i : Nat) (h : v.size = v.capacity) :
    (genVec_push v x true).capacity
        = (if v.capacity < 4 then v.capacity + 1 else 3 * v.capacity / 2) ∧
    (i < v.size →
      (genVec_insert v i x true).capacity
        = (if v.capacity < 4 then v.capacity + 1 else 3 * v.capacity / 2)) := by
  have hg1 : genVec_grow v true =
      { v with
        data := some (reallocBuf v.data
          (if v.capacity < 4 then v.capacity + 1 else 3 * v.capacity / 2)),
        capacity := if v.capacity < 4 then v.capacity + 1 else 3 * v.capacity / 2 } := by
    simp [genVec_grow]
  constructor
  · simp only [genVec_push]
    rw [if_pos (Or.inl (le_of_eq h.symm)), hg1]
  · intro hi
    simp only [genVec_insert]
    rw [if_neg (by omega), if_neg (by omega), if_pos (Or.inl (le_of_eq h.symm)), hg1]

/-- C8 witness: a full vector of capacity 4 grows to capacity 6 on push and
on interior insert. -/
theorem c8_growth_policy_witness :
    (genVec_push { data := some [1, 2, 3, 4], size := 4, capacity := 4, dataSize := 1, delFn := false }
      9 true).capacity = 6 ∧
    (genVec_insert { data := some [1, 2, 3, 4], size := 4, capacity := 4, dataSize := 1, delFn := false }
      0 9 true).capacity = 6 := by
  have h := c8_growth_policy
    { data := some [1, 2, 3, 4], size := 4, capacity := 4, dataSize := 1, delFn := false }
    9 0 rfl
  constructor
  · rw [h.1]
    decide
  · rw [h.2 (by decide)]
    decide

/-- C9: for a non-null vector, `genVec_empty` returns 1 exactly when
`genVec_size` returns 0; for a NULL vector both helpers return 0, so
`genVec_empty` reports a NULL vector as non-empty and the equation
`empty = (size == 0)` fails on the NULL input. -/
theorem c9_empty_size_relation :
    (∀ v : GenVec, genVec_empty (some v) = 1 ↔ genVec_size (some v) = 0) ∧
    genVec_empty none = 0 ∧ genVec_size none = 0 ∧
    ¬ (genVec_empty none = 1 ↔ genVec_size none = 0) := by
  refine ⟨?_, rfl, rfl, ?_⟩
  · intro v
    by_cases hv : v.size = 0 <;> simp [genVec_empty, genVec_size, hv]
  · intro hiff
    have h1 := hiff.mpr rfl
    simp [genVec_empty] at h1

/-- C10: `string_to_cstr` never returns a NULL pointer on API-reachable
strings: on a NULL string, a NULL buffer, or a size-0 buffer it returns the
empty C string, and on a well-formed buffer it returns a pointer whose
C-string reading is exactly the logical content.  (The model is a pure
function of the string state, so the call mutates nothing.) -/
theorem c10_to_cstr_total :
    string_to_cstr none = some [] ∧
    string_to_cstr (some ⟨none⟩) = some [] ∧
    (∀ b : GenVec, b.size = 0 → string_to_cstr (some ⟨some b⟩) = some []) ∧
    (∀ b : GenVec, ∀ c : List Nat, Good b → liveBytes b = c ++ [0] → 0 ∉ c →
      string_to_cstr (some ⟨some b⟩) = some (contentOf b) ∧ contentOf b = c) := by
  refine ⟨rfl, rfl, ?_, ?_⟩
  · intro b hb
    simp [string_to_cstr, hb]
  · intro b c hg hc hzf
    have hcont := contentOf_of_wf b c hg hc
    have hto := toCStr_of_wf b c hg hc hzf
    have hlen : (liveBytes b).length = b.size := liveBytes_length b hg
    have hsz : b.size = c.length + 1 := by rw [hc] at hlen; simp at hlen; omega
    obtain ⟨l, hd⟩ := Option.isSome_iff_exists.mp hg.1
    refine ⟨?_, hcont⟩
    simp only [string_to_cstr]
    rw [if_neg (by omega), hd]
    simp only [Option.map_some']
    simp only [toCStr] at hto
    rw [if_neg (by omega)] at hto
    rw [show cstrView l = cstrView (bufList b) from by rw [bufList, hd]; rfl, hto, hcont]

/-- C10 witness: the totality theorem on the buffer of `"hi"`. -/
theorem c10_to_cstr_total_witness :
    string_to_cstr (some ⟨some { data := some [104, 105, 0], size := 3, capacity := 3, dataSize := 1, delFn := false }⟩)
      = some (contentOf { data := some [104, 105, 0], size := 3, capacity := 3, dataSize := 1, delFn := false }) ∧
    contentOf { data := some [104, 105, 0], size := 3, capacity := 3, dataSize := 1, delFn := false }
      = [104, 105] := by
  exact c10_to_cstr_total.2.2.2
    { data := some [104, 105, 0], size := 3, capacity := 3, dataSize := 1, delFn := false }
    [104, 105] ⟨rfl, rfl, by decide⟩ rfl (by decide)
